import Mathlib

/-!
# A shallow embedding of `native_ai_quantum_energy/quantum_simulator.py`

The Python module implements a state-vector simulator for small quantum
circuits: a `QuantumCircuit` owns `num_qubits`, a list `state` of `2 ^ n`
complex amplitudes and the list `measurements` of the most recent measurement
outcomes.  Gates build a full new state list from a snapshot of the old one;
measurement samples an outcome from the squared-magnitude distribution,
zeroes incompatible amplitudes and renormalises.

The embedding below follows the source statement by statement.  Python's
float arithmetic is idealised as exact real arithmetic (`ℝ`, `ℂ`); list
indexing `state[i]` becomes `List.getD state i 0` and in-place element
assignment becomes `List.set`.  A Python method that may raise becomes a
function returning `QuantumCircuit × Except SimError α`: the first component
is the state of the object after the call (unchanged when the source raises
before mutating), the second the returned value or the exception.
-/

namespace QSim

/-- The two error kinds of the module: `ValueError` (invalid argument) and
`IndexError` (qubit index out of range). -/
inductive SimError where
  | invalidArgument
  | indexOutOfRange
  deriving DecidableEq

/-- `GateMatrix`: a 2×2 complex matrix, row major, mirroring the
`Tuple[Tuple[complex, complex], Tuple[complex, complex]]` alias. -/
structure GateMatrix where
  g00 : ℂ
  g01 : ℂ
  g10 : ℂ
  g11 : ℂ

/-- The circuit object: qubit count, amplitude list and the outcomes of the
most recent measurement call. -/
structure QuantumCircuit where
  num_qubits : ℕ
  state : List ℂ
  measurements : List ℕ

/-- Assignment `self.state = s`. -/
def QuantumCircuit.withState (qc : QuantumCircuit) (s : List ℂ) : QuantumCircuit :=
  { qc with state := s }

/-- Assignments `self.state = s` and `self.measurements = m` together. -/
def QuantumCircuit.withStateMeas (qc : QuantumCircuit) (s : List ℂ) (m : List ℕ) :
    QuantumCircuit :=
  { qc with state := s, measurements := m }

/-- Assignment `self.measurements = m`. -/
def QuantumCircuit.withMeas (qc : QuantumCircuit) (m : List ℕ) : QuantumCircuit :=
  { qc with measurements := m }

noncomputable section

/-- `H_GATE`: Hadamard matrix, entries `1/sqrt 2` with a sign on `g11`. -/
def H_GATE : GateMatrix :=
  ⟨((1 / Real.sqrt 2 : ℝ) : ℂ), ((1 / Real.sqrt 2 : ℝ) : ℂ),
   ((1 / Real.sqrt 2 : ℝ) : ℂ), ((-(1 / Real.sqrt 2) : ℝ) : ℂ)⟩

/-- `X_GATE`: Pauli-X. -/
def X_GATE : GateMatrix := ⟨0, 1, 1, 0⟩

/-- `Y_GATE`: Pauli-Y. -/
def Y_GATE : GateMatrix := ⟨0, -Complex.I, Complex.I, 0⟩

/-- `Z_GATE`: Pauli-Z. -/
def Z_GATE : GateMatrix := ⟨1, 0, 0, -1⟩

/-- `S_GATE`: the phase gate. -/
def S_GATE : GateMatrix := ⟨1, 0, 0, Complex.I⟩

/-- `T_GATE`: the π/8 gate, `cos(π/4) + i·sin(π/4)` in the corner. -/
def T_GATE : GateMatrix :=
  ⟨1, 0, 0, ((Real.cos (Real.pi / 4) : ℝ) : ℂ) + Complex.I * ((Real.sin (Real.pi / 4) : ℝ) : ℂ)⟩

/-- One iteration of the loop in `_apply_single_qubit_gate`: indices whose
`mask` bit is set are skipped (processed as the partner of an earlier index);
otherwise the pair `{index, index ||| mask}` of the accumulator is overwritten
with the gate's linear combination of the pair read from the snapshot `old`. -/
def gateBody (gate : GateMatrix) (mask : ℕ) (old : List ℂ) (acc : List ℂ) (index : ℕ) :
    List ℂ :=
  if index &&& mask ≠ 0 then acc
  else
    (acc.set index (gate.g00 * old.getD index 0 + gate.g01 * old.getD (index ||| mask) 0)).set
      (index ||| mask)
      (gate.g10 * old.getD index 0 + gate.g11 * old.getD (index ||| mask) 0)

/-- The loop of `_apply_single_qubit_gate`: `new_state = self.state.copy()`,
then every `index in range(len(self.state))` is processed by `gateBody`,
always reading amplitudes from the pre-update snapshot. -/
def gateLoop (gate : GateMatrix) (mask : ℕ) (old : List ℂ) : List ℂ :=
  (List.range old.length).foldl (gateBody gate mask old) old

/-- `_apply_single_qubit_gate`: bounds check, then build the mask
`1 <<< (num_qubits - 1 - qubit)` and run the pair loop. -/
def applySingleQubitGate (qc : QuantumCircuit) (gate : GateMatrix) (qubit : ℤ) :
    QuantumCircuit × Except SimError Unit :=
  if qubit < 0 ∨ (qc.num_qubits : ℤ) ≤ qubit then (qc, .error .indexOutOfRange)
  else
    (qc.withState (gateLoop gate (1 <<< (qc.num_qubits - 1 - qubit.toNat)) qc.state), .ok ())

/-- `apply_hadamard`. -/
def apply_hadamard (qc : QuantumCircuit) (qubit : ℤ) : QuantumCircuit × Except SimError Unit :=
  applySingleQubitGate qc H_GATE qubit

/-- `apply_pauli_x`. -/
def apply_pauli_x (qc : QuantumCircuit) (qubit : ℤ) : QuantumCircuit × Except SimError Unit :=
  applySingleQubitGate qc X_GATE qubit

/-- `apply_pauli_y`. -/
def apply_pauli_y (qc : QuantumCircuit) (qubit : ℤ) : QuantumCircuit × Except SimError Unit :=
  applySingleQubitGate qc Y_GATE qubit

/-- `apply_pauli_z`. -/
def apply_pauli_z (qc : QuantumCircuit) (qubit : ℤ) : QuantumCircuit × Except SimError Unit :=
  applySingleQubitGate qc Z_GATE qubit

/-- `apply_s`. -/
def apply_s (qc : QuantumCircuit) (qubit : ℤ) : QuantumCircuit × Except SimError Unit :=
  applySingleQubitGate qc S_GATE qubit

/-- `apply_t`. -/
def apply_t (qc : QuantumCircuit) (qubit : ℤ) : QuantumCircuit × Except SimError Unit :=
  applySingleQubitGate qc T_GATE qubit

/-- The rotation matrix built inside `apply_rx` from the half angle. -/
def rxGate (angle : ℝ) : GateMatrix :=
  ⟨((Real.cos (angle / 2) : ℝ) : ℂ), -Complex.I * ((Real.sin (angle / 2) : ℝ) : ℂ),
   -Complex.I * ((Real.sin (angle / 2) : ℝ) : ℂ), ((Real.cos (angle / 2) : ℝ) : ℂ)⟩

/-- The rotation matrix built inside `apply_ry`. -/
def ryGate (angle : ℝ) : GateMatrix :=
  ⟨((Real.cos (angle / 2) : ℝ) : ℂ), ((-Real.sin (angle / 2) : ℝ) : ℂ),
   ((Real.sin (angle / 2) : ℝ) : ℂ), ((Real.cos (angle / 2) : ℝ) : ℂ)⟩

/-- The rotation matrix built inside `apply_rz`: `cos(θ/2) ∓ i·sin(θ/2)` on
the diagonal. -/
def rzGate (angle : ℝ) : GateMatrix :=
  ⟨((Real.cos (angle / 2) : ℝ) : ℂ) - Complex.I * ((Real.sin (angle / 2) : ℝ) : ℂ), 0,
   0, ((Real.cos (angle / 2) : ℝ) : ℂ) + Complex.I * ((Real.sin (angle / 2) : ℝ) : ℂ)⟩

/-- `apply_rx`. -/
def apply_rx (qc : QuantumCircuit) (qubit : ℤ) (angle : ℝ) :
    QuantumCircuit × Except SimError Unit :=
  applySingleQubitGate qc (rxGate angle) qubit

/-- `apply_ry`. -/
def apply_ry (qc : QuantumCircuit) (qubit : ℤ) (angle : ℝ) :
    QuantumCircuit × Except SimError Unit :=
  applySingleQubitGate qc (ryGate angle) qubit

/-- `apply_rz`. -/
def apply_rz (qc : QuantumCircuit) (qubit : ℤ) (angle : ℝ) :
    QuantumCircuit × Except SimError Unit :=
  applySingleQubitGate qc (rzGate angle) qubit

/-- One iteration of the loop in `apply_cnot`: the amplitude at `index` is
added into the destination `index ^^^ target_mask` when the control bit of
`index` is set, into `index` itself otherwise. -/
def cnotBody (control_mask target_mask : ℕ) (old : List ℂ) (acc : List ℂ) (index : ℕ) :
    List ℂ :=
  let new_index := if index &&& control_mask ≠ 0 then index ^^^ target_mask else index
  acc.set new_index (acc.getD new_index 0 + old.getD index 0)

/-- The loop of `apply_cnot`: scan the pre-update vector once, accumulating
into a fresh zero-initialised vector. -/
def cnotLoop (control_mask target_mask : ℕ) (old : List ℂ) : List ℂ :=
  (List.range old.length).foldl (cnotBody control_mask target_mask old)
    (List.replicate old.length 0)

/-- `apply_cnot`: equal-index check first (`ValueError`), then bounds check
(`IndexError`), then the accumulation loop. -/
def apply_cnot (qc : QuantumCircuit) (control target : ℤ) :
    QuantumCircuit × Except SimError Unit :=
  if control = target then (qc, .error .invalidArgument)
  else if control < 0 ∨ (qc.num_qubits : ℤ) ≤ control ∨
      target < 0 ∨ (qc.num_qubits : ℤ) ≤ target then (qc, .error .indexOutOfRange)
  else
    (qc.withState (cnotLoop (1 <<< (qc.num_qubits - 1 - control.toNat))
      (1 <<< (qc.num_qubits - 1 - target.toNat)) qc.state), .ok ())

/-- One iteration of the loop in `apply_cz`: the amplitude is negated when
both the control and the target bits of `index` are set. -/
def czBody (control_mask target_mask : ℕ) (old : List ℂ) (acc : List ℂ) (index : ℕ) :
    List ℂ :=
  if index &&& control_mask ≠ 0 ∧ index &&& target_mask ≠ 0 then
    acc.set index (-(old.getD index 0))
  else acc

/-- The loop of `apply_cz`, writing into a copy of the state. -/
def czLoop (control_mask target_mask : ℕ) (old : List ℂ) : List ℂ :=
  (List.range old.length).foldl (czBody control_mask target_mask old) old

/-- `apply_cz`: same validation order as `apply_cnot`. -/
def apply_cz (qc : QuantumCircuit) (control target : ℤ) :
    QuantumCircuit × Except SimError Unit :=
  if control = target then (qc, .error .invalidArgument)
  else if control < 0 ∨ (qc.num_qubits : ℤ) ≤ control ∨
      target < 0 ∨ (qc.num_qubits : ℤ) ≤ target then (qc, .error .indexOutOfRange)
  else
    (qc.withState (czLoop (1 <<< (qc.num_qubits - 1 - control.toNat))
      (1 <<< (qc.num_qubits - 1 - target.toNat)) qc.state), .ok ())

/-- The bit tuple `tuple((index >> (num_qubits - 1 - q)) & 1 for q in qubits)`
extracted for one basis `index`. -/
def bitsOf (n : ℕ) (qs : List ℕ) (index : ℕ) : List ℕ :=
  qs.map (fun q => (index >>> (n - 1 - q)) &&& 1)

/-- The distinct outcome keys of the `outcome_probs` dictionary: every bit
tuple reached by some basis index. -/
def outcomeKeysList (n : ℕ) (qs : List ℕ) (len : ℕ) : List (List ℕ) :=
  ((List.range len).map (bitsOf n qs)).dedup

/-- The probability mass the dictionary accumulates for the key `key`:
the sum of `abs(amplitude) ** 2` over the indices extracting `key`. -/
def outcomeProb (n : ℕ) (qs : List ℕ) (state : List ℂ) (key : List ℕ) : ℝ :=
  ∑ i ∈ (Finset.range state.length).filter (fun i => bitsOf n qs i = key),
    Complex.abs (state.getD i 0) ^ 2

/-- Python's lexicographic `<` on equal-or-unequal-length tuples of naturals,
used (reversed) by `sorted(..., key=lambda item: item[0], reverse=True)`. -/
def tupleLtB : List ℕ → List ℕ → Bool
  | [], [] => false
  | [], _ :: _ => true
  | _ :: _, [] => false
  | a :: as, b :: bs => if a < b then true else if b < a then false else tupleLtB as bs

/-- Insert one `(key, prob)` item into a list kept in descending key order. -/
def sortInsert (x : List ℕ × ℝ) : List (List ℕ × ℝ) → List (List ℕ × ℝ)
  | [] => [x]
  | y :: ys => if tupleLtB x.1 y.1 then y :: sortInsert x ys else x :: y :: ys

/-- `sorted(outcome_probs.items(), key=lambda item: item[0], reverse=True)`:
the items in descending key order (keys are distinct, so stability is moot). -/
def sortDescPairs : List (List ℕ × ℝ) → List (List ℕ × ℝ)
  | [] => []
  | x :: xs => sortInsert x (sortDescPairs xs)

/-- The selection loop: accumulate probabilities in enumeration order and
return the first key whose cumulative probability strictly exceeds `rand`. -/
def pickOutcome (rand : ℝ) : ℝ → List (List ℕ × ℝ) → Option (List ℕ)
  | _, [] => none
  | cumulative, item :: rest =>
    if rand < cumulative + item.2 then some item.1
    else pickOutcome rand (cumulative + item.2) rest

/-- The local `sorted_outcomes` of `_collapse_qubits`: the items of the
`outcome_probs` dictionary sorted by key, descending. -/
def sortedItems (n : ℕ) (qs : List ℕ) (state : List ℂ) : List (List ℕ × ℝ) :=
  sortDescPairs ((outcomeKeysList n qs state.length).map
    (fun k => (k, outcomeProb n qs state k)))

/-- The local `chosen_outcome` of `_collapse_qubits`: the selection loop's
result, with the last enumerated outcome as the numerical-drift fallback. -/
def chosenOutcome (n : ℕ) (qs : List ℕ) (state : List ℂ) (rand : ℝ) : List ℕ :=
  match pickOutcome rand 0 (sortedItems n qs state) with
  | some k => k
  | none => ((sortedItems n qs state).getLast?.map Prod.fst).getD []

/-- The collapsed vector of `_collapse_qubits`: zero every amplitude whose
bits do not match the chosen outcome, then divide the survivors by the square
root of the chosen mass — skipped when that mass is 0. -/
def collapsedState (n : ℕ) (qs : List ℕ) (state : List ℂ) (rand : ℝ) : List ℂ :=
  let chosen := chosenOutcome n qs state rand
  let filtered := (List.range state.length).map
    (fun i => if bitsOf n qs i = chosen then state.getD i 0 else 0)
  if 0 < outcomeProb n qs state chosen then
    filtered.map (fun a => a / (Real.sqrt (outcomeProb n qs state chosen) : ℂ))
  else filtered

/-- `_collapse_qubits`, with the uniform draw `rand` passed explicitly (the
source reads `random.random()`, an injectable dependency): validate, gather
the outcome distribution, sample, zero incompatible amplitudes and divide the
survivors by the square root of the chosen mass unless that mass is zero. -/
def collapseQubits (n : ℕ) (state : List ℂ) (qubits : List ℤ) (rand : ℝ) :
    Except SimError (List ℕ × List ℂ) :=
  if qubits.any (fun q => q < 0 || (n : ℤ) ≤ q) then .error .indexOutOfRange
  else if qubits.dedup.length ≠ qubits.length then .error .invalidArgument
  else if qubits = [] then .ok ([], state)
  else
    .ok (chosenOutcome n (qubits.map Int.toNat) state rand,
         collapsedState n (qubits.map Int.toNat) state rand)

/-- `int(s)` on the decimal digit string the collapse returns (each entry of
`bits` is one digit). -/
def decVal (bits : List ℕ) : ℕ := bits.foldl (fun acc b => 10 * acc + b) 0

/-- The `"".join(str(bit) for bit in ...)` bit string of an outcome. -/
def bitString (bits : List ℕ) : String := String.join (bits.map (fun b => toString b))

/-- `measure`: collapse one qubit, store the outcome, return the bit. -/
def measure (qc : QuantumCircuit) (qubit : ℤ) (rand : ℝ) :
    QuantumCircuit × Except SimError ℕ :=
  match collapseQubits qc.num_qubits qc.state [qubit] rand with
  | .error e => (qc, .error e)
  | .ok (outcome, new_state) =>
    (qc.withStateMeas new_state (if outcome ≠ [] then [decVal outcome] else []),
     .ok (if outcome ≠ [] then decVal outcome else 0))

/-- The loop of `measure_all`: collapse qubits one at a time, appending each
bit to `bits` and to `measurements`; `rands step` is the draw of step
`step`.  An exception inside the loop would leave the partially mutated
object behind, which the first component records faithfully. -/
def measureAllGo (rands : ℕ → ℝ) :
    List ℕ → ℕ → QuantumCircuit → List ℕ → QuantumCircuit × Except SimError (List ℕ)
  | [], _, qc, bits => (qc, .ok bits)
  | q :: rest, step, qc, bits =>
    match collapseQubits qc.num_qubits qc.state [(q : ℤ)] (rands step) with
    | .error e => (qc, .error e)
    | .ok (outcome, new_state) =>
      measureAllGo rands rest (step + 1)
        (qc.withStateMeas new_state
          (qc.measurements ++ [if outcome ≠ [] then decVal outcome else 0]))
        (bits ++ [if outcome ≠ [] then decVal outcome else 0])

/-- `measure_all`: reset `measurements`, then measure qubits `0 .. n-1`
sequentially, returning the collected bits (the source joins them into a
string; `bitString` recovers it). -/
def measure_all (qc : QuantumCircuit) (rands : ℕ → ℝ) :
    QuantumCircuit × Except SimError (List ℕ) :=
  measureAllGo rands (List.range qc.num_qubits) 0 (qc.withMeas []) []

/-- `measure_subset`: collapse the requested qubits jointly, store and return
the outcome bits in request order. -/
def measure_subset (qc : QuantumCircuit) (qubits : List ℤ) (rand : ℝ) :
    QuantumCircuit × Except SimError (List ℕ) :=
  match collapseQubits qc.num_qubits qc.state qubits rand with
  | .error e => (qc, .error e)
  | .ok (outcome, new_state) =>
    (qc.withStateMeas new_state outcome, .ok outcome)

/-- `statevector()`: a copy of the amplitude list. -/
def statevector (qc : QuantumCircuit) : List ℂ := qc.state

/-- `probabilities()`: the squared magnitude of every amplitude. -/
def probabilities (qc : QuantumCircuit) : List ℝ :=
  qc.state.map (fun amp => Complex.abs amp ^ 2)

/-- `amplitudes()`: the tuple view of the state (the same list). -/
def amplitudes (qc : QuantumCircuit) : List ℂ := qc.state

/-- `math.isclose(a, b, rel_tol=1e-9, abs_tol=1e-9)`. -/
def isclose (a b : ℝ) : Prop := |a - b| ≤ max (1e-9 * max |a| |b|) 1e-9

/-- The total squared magnitude `sum(abs(amp) ** 2 for amp in state)`. -/
def normSum (state : List ℂ) : ℝ := (state.map (fun amp => Complex.abs amp ^ 2)).sum

open Classical in
/-- `initialize_statevector`: reject a wrong-length vector, reject a vector
whose total squared magnitude is not close to 1, otherwise copy verbatim. -/
def initialize_statevector (qc : QuantumCircuit) (amps : List ℂ) :
    QuantumCircuit × Except SimError Unit :=
  if amps.length ≠ 2 ^ qc.num_qubits then (qc, .error .invalidArgument)
  else if ¬ isclose (normSum amps) 1 then (qc, .error .invalidArgument)
  else (qc.withState amps, .ok ())

/-- `QuantumCircuit.__init__`: reject `num_qubits < 1`, else start in
`|0...0⟩` — a zero list of length `2 ^ n` with amplitude 1 written at 0. -/
def QuantumCircuit.make (num_qubits : ℤ) : Except SimError QuantumCircuit :=
  if num_qubits < 1 then .error .invalidArgument
  else
    .ok { num_qubits := num_qubits.toNat,
          state := (List.replicate (2 ^ num_qubits.toNat) (0 : ℂ)).set 0 1,
          measurements := [] }

/-- One public mutating call of the circuit, with its random draws
attached (measurement draws are the source's injectable randomness). -/
inductive Op where
  | hadamard (q : ℤ)
  | pauliX (q : ℤ)
  | pauliY (q : ℤ)
  | pauliZ (q : ℤ)
  | sgate (q : ℤ)
  | tgate (q : ℤ)
  | rx (q : ℤ) (angle : ℝ)
  | ry (q : ℤ) (angle : ℝ)
  | rz (q : ℤ) (angle : ℝ)
  | cnot (control target : ℤ)
  | cz (control target : ℤ)
  | measureOne (q : ℤ) (rand : ℝ)
  | measureAllOp (rands : ℕ → ℝ)
  | measureSubsetOp (qs : List ℤ) (rand : ℝ)

/-- The error component of a call's result. -/
def errPart {α : Type} : Except SimError α → Option SimError
  | .error e => some e
  | .ok _ => none

/-- Run one call against the circuit, keeping the object state and the
raised error (if any), discarding returned values. -/
def runOp (qc : QuantumCircuit) : Op → QuantumCircuit × Option SimError
  | .hadamard q => ((apply_hadamard qc q).1, errPart (apply_hadamard qc q).2)
  | .pauliX q => ((apply_pauli_x qc q).1, errPart (apply_pauli_x qc q).2)
  | .pauliY q => ((apply_pauli_y qc q).1, errPart (apply_pauli_y qc q).2)
  | .pauliZ q => ((apply_pauli_z qc q).1, errPart (apply_pauli_z qc q).2)
  | .sgate q => ((apply_s qc q).1, errPart (apply_s qc q).2)
  | .tgate q => ((apply_t qc q).1, errPart (apply_t qc q).2)
  | .rx q angle => ((apply_rx qc q angle).1, errPart (apply_rx qc q angle).2)
  | .ry q angle => ((apply_ry qc q angle).1, errPart (apply_ry qc q angle).2)
  | .rz q angle => ((apply_rz qc q angle).1, errPart (apply_rz qc q angle).2)
  | .cnot c t => ((apply_cnot qc c t).1, errPart (apply_cnot qc c t).2)
  | .cz c t => ((apply_cz qc c t).1, errPart (apply_cz qc c t).2)
  | .measureOne q rand => ((measure qc q rand).1, errPart (measure qc q rand).2)
  | .measureAllOp rands => ((measure_all qc rands).1, errPart (measure_all qc rands).2)
  | .measureSubsetOp qs rand =>
    ((measure_subset qc qs rand).1, errPart (measure_subset qc qs rand).2)

/-- Every random draw an operation consumes lies in `[0, 1)` (the contract of
`random.random()`). -/
def validDraws : Op → Prop
  | .measureOne _ rand => 0 ≤ rand ∧ rand < 1
  | .measureAllOp rands => ∀ i, 0 ≤ rands i ∧ rands i < 1
  | .measureSubsetOp _ rand => 0 ≤ rand ∧ rand < 1
  | _ => True

end

/-! ## Bitwise helper lemmas -/

theorem and_two_pow_eq_zero_iff (i t : ℕ) : i &&& 2 ^ t = 0 ↔ i.testBit t = false := by
  rw [Nat.and_two_pow]
  cases h : i.testBit t
  · simp
  · simp [(Nat.two_pow_pos t).ne']

theorem and_two_pow_ne_zero_iff (i t : ℕ) : i &&& 2 ^ t ≠ 0 ↔ i.testBit t = true := by
  rw [Ne, and_two_pow_eq_zero_iff]
  simp

theorem or_two_pow_of_testBit_false {i t : ℕ} (h : i.testBit t = false) :
    i ||| 2 ^ t = i ^^^ 2 ^ t := by
  apply Nat.eq_of_testBit_eq
  intro s
  rcases eq_or_ne s t with rfl | hs
  · simp [Nat.testBit_or, Nat.testBit_xor, h, Nat.testBit_two_pow_self]
  · simp [Nat.testBit_or, Nat.testBit_xor, Nat.testBit_two_pow_of_ne (Ne.symm hs)]

theorem testBit_xor_two_pow (i t : ℕ) : (i ^^^ 2 ^ t).testBit t = !i.testBit t := by
  simp [Nat.testBit_xor, Nat.testBit_two_pow_self]

theorem xor_two_pow_lt {i t n : ℕ} (hi : i < 2 ^ n) (ht : t < n) : i ^^^ 2 ^ t < 2 ^ n :=
  Nat.xor_lt_two_pow hi (Nat.pow_lt_pow_right one_lt_two ht)

theorem or_two_pow_lt {i t n : ℕ} (hi : i < 2 ^ n) (ht : t < n) : i ||| 2 ^ t < 2 ^ n :=
  Nat.or_lt_two_pow hi (Nat.pow_lt_pow_right one_lt_two ht)

theorem xor_two_pow_xor (i t : ℕ) : i ^^^ 2 ^ t ^^^ 2 ^ t = i := Nat.xor_cancel_right _ i

/-! ## List access lemmas -/

theorem getD_set_self {α : Type} [Inhabited α] (l : List α) {i : ℕ} (h : i < l.length)
    (a d : α) : (l.set i a).getD i d = a := by
  simp [List.getD_eq_getElem?_getD, List.getElem?_set_self, h]

theorem getD_set_ne {α : Type} [Inhabited α] (l : List α) {i j : ℕ} (h : i ≠ j)
    (a d : α) : (l.set i a).getD j d = l.getD j d := by
  simp [List.getD_eq_getElem?_getD, List.getElem?_set_ne h]

/-! ## Characterization of the single-qubit gate loop -/

noncomputable section

/-- The closed-form value the pair loop leaves at index `j`: indices with the
mask bit clear get the first row of the gate applied to the pair, their
partners the second row, both read from the untouched snapshot. -/
def newAmp (gate : GateMatrix) (mask : ℕ) (old : List ℂ) (j : ℕ) : ℂ :=
  if j &&& mask = 0 then
    gate.g00 * old.getD j 0 + gate.g01 * old.getD (j ||| mask) 0
  else
    gate.g10 * old.getD (j ^^^ mask) 0 + gate.g11 * old.getD j 0

end

theorem gateBody_length (gate : GateMatrix) (mask : ℕ) (old acc : List ℂ) (i : ℕ) :
    (gateBody gate mask old acc i).length = acc.length := by
  unfold gateBody
  split <;> simp

theorem gateFold_length (gate : GateMatrix) (mask : ℕ) (old : List ℂ) (l : List ℕ)
    (acc : List ℂ) : (l.foldl (gateBody gate mask old) acc).length = acc.length := by
  induction l generalizing acc with
  | nil => rfl
  | cons x xs ih => rw [List.foldl_cons, ih, gateBody_length]

theorem gateFold_getD {n t : ℕ} (gate : GateMatrix) (old : List ℂ) (ht : t < n)
    (hlen : old.length = 2 ^ n) :
    ∀ k, k ≤ 2 ^ n → ∀ j,
      ((List.range k).foldl (gateBody gate (2 ^ t) old) old).getD j 0 =
        if (j &&& 2 ^ t = 0 ∧ j < k) ∨ (j &&& 2 ^ t ≠ 0 ∧ j ^^^ 2 ^ t < k) then
          newAmp gate (2 ^ t) old j
        else old.getD j 0 := by
  intro k
  induction k with
  | zero =>
    intro _ j
    simp
  | succ k ih =>
    intro hk j
    have hklt : k < 2 ^ n := hk
    have hk' : k ≤ 2 ^ n := le_of_lt hklt
    rw [List.range_succ, List.foldl_append, List.foldl_cons, List.foldl_nil]
    have hreslen : ((List.range k).foldl (gateBody gate (2 ^ t) old) old).length = 2 ^ n := by
      rw [gateFold_length, hlen]
    set res := (List.range k).foldl (gateBody gate (2 ^ t) old) old with hres
    by_cases hkbit : k &&& 2 ^ t = 0
    · -- the body writes positions k and k ||| 2 ^ t
      have tbk : k.testBit t = false := (and_two_pow_eq_zero_iff k t).mp hkbit
      have hpxor : k ||| 2 ^ t = k ^^^ 2 ^ t := or_two_pow_of_testBit_false tbk
      have tbp : (k ^^^ 2 ^ t).testBit t = true := by
        rw [testBit_xor_two_pow, tbk]
        rfl
      have hpbit : (k ||| 2 ^ t) &&& 2 ^ t ≠ 0 := by
        rw [hpxor, and_two_pow_ne_zero_iff]
        exact tbp
      have hpk : k ||| 2 ^ t ≠ k := by
        rw [hpxor]
        intro hcontra
        rw [← hcontra] at tbk
        rw [tbp] at tbk
        exact Bool.true_eq_false.mp tbk
      have hplt : k ||| 2 ^ t < 2 ^ n := or_two_pow_lt hklt ht
      simp only [gateBody, if_neg (show ¬ k &&& 2 ^ t ≠ 0 by simp [hkbit])]
      rcases eq_or_ne j k with rfl | hjk
      · rw [getD_set_ne _ hpk, getD_set_self res (by rw [hreslen]; exact hklt)]
        rw [if_pos (Or.inl ⟨hkbit, Nat.lt_succ_self j⟩), newAmp, if_pos hkbit]
      · rcases eq_or_ne j (k ||| 2 ^ t) with rfl | hjp
        · rw [getD_set_self (res.set k _) (by rw [List.length_set, hreslen]; exact hplt)]
          rw [if_pos (Or.inr ⟨hpbit, by rw [hpxor, xor_two_pow_xor]; exact Nat.lt_succ_self k⟩)]
          rw [newAmp, if_neg hpbit, hpxor, xor_two_pow_xor]
        · rw [getD_set_ne _ (Ne.symm hjp), getD_set_ne _ (Ne.symm hjk), ih hk' j]
          congr 1
          apply propext
          constructor
          · rintro (⟨h1, h2⟩ | ⟨h1, h2⟩)
            · exact Or.inl ⟨h1, Nat.lt_succ_of_lt h2⟩
            · exact Or.inr ⟨h1, Nat.lt_succ_of_lt h2⟩
          · rintro (⟨h1, h2⟩ | ⟨h1, h2⟩)
            · refine Or.inl ⟨h1, lt_of_le_of_ne (Nat.lt_succ_iff.mp h2) hjk⟩
            · refine Or.inr ⟨h1, lt_of_le_of_ne (Nat.lt_succ_iff.mp h2) ?_⟩
              intro hcontra
              apply hjp
              rw [hpxor, ← hcontra, xor_two_pow_xor]
    · -- the body skips this index, which was already written as a partner
      simp only [gateBody, if_pos hkbit]
      rw [ih hk' j]
      have tbk : k.testBit t = true := (and_two_pow_ne_zero_iff k t).mp hkbit
      congr 1
      apply propext
      constructor
      · rintro (⟨h1, h2⟩ | ⟨h1, h2⟩)
        · exact Or.inl ⟨h1, Nat.lt_succ_of_lt h2⟩
        · exact Or.inr ⟨h1, Nat.lt_succ_of_lt h2⟩
      · rintro (⟨h1, h2⟩ | ⟨h1, h2⟩)
        · refine Or.inl ⟨h1, lt_of_le_of_ne (Nat.lt_succ_iff.mp h2) ?_⟩
          intro hcontra
          rw [hcontra, and_two_pow_eq_zero_iff, tbk] at h1
          exact Bool.true_eq_false.mp h1
        · refine Or.inr ⟨h1, lt_of_le_of_ne (Nat.lt_succ_iff.mp h2) ?_⟩
          intro hcontra
          have hbt : (j ^^^ 2 ^ t).testBit t = false := by
            rw [testBit_xor_two_pow, (and_two_pow_ne_zero_iff j t).mp h1]
            rfl
          rw [hcontra, tbk] at hbt
          exact Bool.true_eq_false.mp hbt

/-! ## Sums over the index range -/

theorem map_sum_eq_range_sum (f : ℂ → ℝ) (l : List ℂ) :
    (l.map f).sum = ∑ i ∈ Finset.range l.length, f (l.getD i 0) := by
  induction l with
  | nil => simp
  | cons a l ih =>
    rw [List.map_cons, List.sum_cons, List.length_cons, Finset.sum_range_succ', ih]
    simp [add_comm]

theorem gateLoop_length (gate : GateMatrix) (mask : ℕ) (old : List ℂ) :
    (gateLoop gate mask old).length = old.length := by
  unfold gateLoop
  rw [gateFold_length]

theorem gateLoop_getD {n t : ℕ} (gate : GateMatrix) (old : List ℂ) (ht : t < n)
    (hlen : old.length = 2 ^ n) (j : ℕ) :
    (gateLoop gate (2 ^ t) old).getD j 0 =
      if j < 2 ^ n then newAmp gate (2 ^ t) old j else old.getD j 0 := by
  unfold gateLoop
  rw [hlen, gateFold_getD gate old ht hlen (2 ^ n) le_rfl j]
  by_cases hj : j < 2 ^ n
  · rw [if_pos hj]
    by_cases hbit : j &&& 2 ^ t = 0
    · rw [if_pos (Or.inl ⟨hbit, hj⟩)]
    · rw [if_pos (Or.inr ⟨hbit, xor_two_pow_lt hj ht⟩)]
  · rw [if_neg hj, if_neg]
    rintro (⟨_, h2⟩ | ⟨_, h2⟩)
    · exact hj h2
    · apply hj
      have hlt := xor_two_pow_lt h2 ht
      rwa [xor_two_pow_xor] at hlt

/-- Splitting a sum over all `2 ^ n` indices into the pairs
`{j, j ||| 2 ^ t}` over the indices with bit `t` clear. -/
theorem sum_range_two_pow_pair {n t : ℕ} (ht : t < n) (f : ℕ → ℝ) :
    ∑ j ∈ Finset.range (2 ^ n), f j =
      ∑ j ∈ (Finset.range (2 ^ n)).filter (fun j => j &&& 2 ^ t = 0),
        (f j + f (j ||| 2 ^ t)) := by
  rw [← Finset.sum_filter_add_sum_filter_not (Finset.range (2 ^ n))
    (fun j => j &&& 2 ^ t = 0) f]
  rw [Finset.sum_add_distrib]
  congr 1
  apply Finset.sum_nbij' (fun j => j ^^^ 2 ^ t) (fun j => j ^^^ 2 ^ t)
  · intro a ha
    obtain ⟨halt, habit⟩ := Finset.mem_filter.mp ha
    have halt' := Finset.mem_range.mp halt
    refine Finset.mem_filter.mpr ⟨Finset.mem_range.mpr (xor_two_pow_lt halt' ht), ?_⟩
    rw [and_two_pow_eq_zero_iff, testBit_xor_two_pow,
      (and_two_pow_ne_zero_iff a t).mp habit]
    rfl
  · intro a ha
    obtain ⟨halt, habit⟩ := Finset.mem_filter.mp ha
    have halt' := Finset.mem_range.mp halt
    refine Finset.mem_filter.mpr ⟨Finset.mem_range.mpr (xor_two_pow_lt halt' ht), ?_⟩
    show ¬ (a ^^^ 2 ^ t) &&& 2 ^ t = 0
    rw [and_two_pow_eq_zero_iff, testBit_xor_two_pow,
      (and_two_pow_eq_zero_iff a t).mp habit]
    simp
  · intro a _
    exact xor_two_pow_xor a t
  · intro a _
    exact xor_two_pow_xor a t
  · intro a ha
    obtain ⟨_, habit⟩ := Finset.mem_filter.mp ha
    have tbfa : (a ^^^ 2 ^ t).testBit t = false := by
      rw [testBit_xor_two_pow, (and_two_pow_ne_zero_iff a t).mp habit]
      rfl
    rw [or_two_pow_of_testBit_false tbfa, xor_two_pow_xor]

/-! ## Unitarity of the gate matrices and norm preservation -/

/-- The columns of the 2×2 matrix are orthonormal: each column has unit
norm and the two columns are orthogonal. -/
def IsUnitaryCols (gate : GateMatrix) : Prop :=
  Complex.normSq gate.g00 + Complex.normSq gate.g10 = 1 ∧
  Complex.normSq gate.g01 + Complex.normSq gate.g11 = 1 ∧
  gate.g00 * (starRingEnd ℂ) gate.g01 + gate.g10 * (starRingEnd ℂ) gate.g11 = 0

theorem pair_normSq (gate : GateMatrix) (hU : IsUnitaryCols gate) (a b : ℂ) :
    Complex.normSq (gate.g00 * a + gate.g01 * b) +
      Complex.normSq (gate.g10 * a + gate.g11 * b) =
    Complex.normSq a + Complex.normSq b := by
  obtain ⟨h1, h2, h3⟩ := hU
  have hz : gate.g00 * a * (starRingEnd ℂ) (gate.g01 * b) +
      gate.g10 * a * (starRingEnd ℂ) (gate.g11 * b) = 0 := by
    rw [map_mul, map_mul]
    have hfactor : gate.g00 * a * ((starRingEnd ℂ) gate.g01 * (starRingEnd ℂ) b) +
        gate.g10 * a * ((starRingEnd ℂ) gate.g11 * (starRingEnd ℂ) b) =
        (gate.g00 * (starRingEnd ℂ) gate.g01 + gate.g10 * (starRingEnd ℂ) gate.g11) *
          (a * (starRingEnd ℂ) b) := by ring
    rw [hfactor, h3, zero_mul]
  have hzre : (gate.g00 * a * (starRingEnd ℂ) (gate.g01 * b)).re +
      (gate.g10 * a * (starRingEnd ℂ) (gate.g11 * b)).re = 0 := by
    rw [← Complex.add_re, hz, Complex.zero_re]
  rw [Complex.normSq_add, Complex.normSq_add, Complex.normSq_mul, Complex.normSq_mul,
    Complex.normSq_mul, Complex.normSq_mul]
  linear_combination Complex.normSq a * h1 + Complex.normSq b * h2 + 2 * hzre

/-- The full norm-preservation statement for the pair loop. -/
theorem gateLoop_normSum {n t : ℕ} (gate : GateMatrix) (old : List ℂ) (ht : t < n)
    (hlen : old.length = 2 ^ n) (hU : IsUnitaryCols gate) :
    normSum (gateLoop gate (2 ^ t) old) = normSum old := by
  unfold normSum
  rw [map_sum_eq_range_sum, map_sum_eq_range_sum, gateLoop_length, hlen]
  rw [Finset.sum_congr rfl (fun j hj => by
    rw [gateLoop_getD gate old ht hlen j, if_pos (Finset.mem_range.mp hj)])]
  rw [sum_range_two_pow_pair ht (fun j => Complex.abs (newAmp gate (2 ^ t) old j) ^ 2),
    sum_range_two_pow_pair ht (fun j => Complex.abs (old.getD j 0) ^ 2)]
  apply Finset.sum_congr rfl
  intro j hj
  obtain ⟨hjlt, hjbit⟩ := Finset.mem_filter.mp hj
  have hjlt' := Finset.mem_range.mp hjlt
  have tbj : j.testBit t = false := (and_two_pow_eq_zero_iff j t).mp hjbit
  have hpxor : j ||| 2 ^ t = j ^^^ 2 ^ t := or_two_pow_of_testBit_false tbj
  have hpbit : (j ||| 2 ^ t) &&& 2 ^ t ≠ 0 := by
    rw [hpxor, and_two_pow_ne_zero_iff, testBit_xor_two_pow, tbj]
    rfl
  have hpx : (j ||| 2 ^ t) ^^^ 2 ^ t = j := by
    rw [hpxor, xor_two_pow_xor]
  show Complex.abs (newAmp gate (2 ^ t) old j) ^ 2 +
      Complex.abs (newAmp gate (2 ^ t) old (j ||| 2 ^ t)) ^ 2 =
    Complex.abs (old.getD j 0) ^ 2 + Complex.abs (old.getD (j ||| 2 ^ t) 0) ^ 2
  rw [newAmp, if_pos hjbit, newAmp, if_neg hpbit, hpx]
  rw [Complex.sq_abs, Complex.sq_abs, Complex.sq_abs, Complex.sq_abs]
  exact pair_normSq gate hU _ _

theorem H_GATE_unitary : IsUnitaryCols H_GATE := by
  have h2 : Real.sqrt 2 * Real.sqrt 2 = 2 := Real.mul_self_sqrt (by norm_num)
  refine ⟨?_, ?_, ?_⟩
  · simp only [H_GATE, Complex.normSq_ofReal]
    rw [div_mul_div_comm, h2]
    norm_num
  · simp only [H_GATE, Complex.normSq_ofReal]
    rw [neg_mul_neg, div_mul_div_comm, h2]
    norm_num
  · simp only [H_GATE, Complex.conj_ofReal]
    push_cast
    ring

theorem X_GATE_unitary : IsUnitaryCols X_GATE := by
  refine ⟨?_, ?_, ?_⟩ <;> simp [X_GATE]

theorem Y_GATE_unitary : IsUnitaryCols Y_GATE := by
  refine ⟨?_, ?_, ?_⟩ <;> simp [Y_GATE]

theorem Z_GATE_unitary : IsUnitaryCols Z_GATE := by
  refine ⟨?_, ?_, ?_⟩ <;> simp [Z_GATE]

theorem S_GATE_unitary : IsUnitaryCols S_GATE := by
  refine ⟨?_, ?_, ?_⟩ <;> simp [S_GATE]

theorem T_GATE_unitary : IsUnitaryCols T_GATE := by
  refine ⟨?_, ?_, ?_⟩
  · simp [T_GATE]
  · simp only [T_GATE, Complex.normSq_apply, Complex.add_re, Complex.add_im,
      Complex.ofReal_re, Complex.ofReal_im, Complex.mul_re, Complex.mul_im,
      Complex.I_re, Complex.I_im, Complex.zero_re, Complex.zero_im]
    have hsc := Real.sin_sq_add_cos_sq (Real.pi / 4)
    ring_nf
    ring_nf at hsc
    linarith [hsc]
  · simp [T_GATE]

theorem rxGate_unitary (angle : ℝ) : IsUnitaryCols (rxGate angle) := by
  have hsc := Real.sin_sq_add_cos_sq (angle / 2)
  refine ⟨?_, ?_, ?_⟩
  · simp only [rxGate, Complex.normSq_ofReal, Complex.normSq_mul, Complex.normSq_neg,
      Complex.normSq_I]
    ring_nf
    ring_nf at hsc
    linarith [hsc]
  · simp only [rxGate, Complex.normSq_ofReal, Complex.normSq_mul, Complex.normSq_neg,
      Complex.normSq_I]
    ring_nf
    ring_nf at hsc
    linarith [hsc]
  · simp only [rxGate, map_mul, Complex.conj_ofReal, map_neg, Complex.conj_I]
    ring

theorem ryGate_unitary (angle : ℝ) : IsUnitaryCols (ryGate angle) := by
  have hsc := Real.sin_sq_add_cos_sq (angle / 2)
  refine ⟨?_, ?_, ?_⟩
  · simp only [ryGate, Complex.normSq_ofReal]
    ring_nf
    ring_nf at hsc
    linarith [hsc]
  · simp only [ryGate, Complex.normSq_ofReal]
    ring_nf
    ring_nf at hsc
    linarith [hsc]
  · simp only [ryGate, Complex.conj_ofReal]
    push_cast
    ring

theorem rzGate_unitary (angle : ℝ) : IsUnitaryCols (rzGate angle) := by
  have hsc := Real.sin_sq_add_cos_sq (angle / 2)
  refine ⟨?_, ?_, ?_⟩
  · simp only [rzGate, Complex.normSq_apply, Complex.sub_re, Complex.sub_im,
      Complex.add_re, Complex.add_im, Complex.ofReal_re, Complex.ofReal_im,
      Complex.mul_re, Complex.mul_im, Complex.I_re, Complex.I_im, Complex.zero_re,
      Complex.zero_im]
    ring_nf
    ring_nf at hsc
    linarith [hsc]
  · simp only [rzGate, Complex.normSq_apply, Complex.sub_re, Complex.sub_im,
      Complex.add_re, Complex.add_im, Complex.ofReal_re, Complex.ofReal_im,
      Complex.mul_re, Complex.mul_im, Complex.I_re, Complex.I_im, Complex.zero_re,
      Complex.zero_im]
    ring_nf
    ring_nf at hsc
    linarith [hsc]
  · simp [rzGate]

/-! ## Characterization of the CNOT accumulation loop -/

/-- The index map CNOT induces: flip the target bit of every index whose
control bit is set. -/
def cnotPerm (control_mask target_mask : ℕ) (index : ℕ) : ℕ :=
  if index &&& control_mask ≠ 0 then index ^^^ target_mask else index

theorem testBit_xor_two_pow_ne {u c : ℕ} (h : u ≠ c) (i : ℕ) :
    (i ^^^ 2 ^ u).testBit c = i.testBit c := by
  rw [Nat.testBit_xor, Nat.testBit_two_pow_of_ne h]
  simp

theorem cnotPerm_invol {c u : ℕ} (hcu : c ≠ u) (i : ℕ) :
    cnotPerm (2 ^ c) (2 ^ u) (cnotPerm (2 ^ c) (2 ^ u) i) = i := by
  unfold cnotPerm
  by_cases hbit : i &&& 2 ^ c ≠ 0
  · rw [if_pos hbit]
    have hb2 : (i ^^^ 2 ^ u) &&& 2 ^ c ≠ 0 := by
      rw [and_two_pow_ne_zero_iff, testBit_xor_two_pow_ne (Ne.symm hcu)]
      exact (and_two_pow_ne_zero_iff i c).mp hbit
    rw [if_pos hb2, xor_two_pow_xor]
  · rw [if_neg hbit, if_neg hbit]

theorem cnotPerm_lt {n c u : ℕ} (hu : u < n) {i : ℕ} (hi : i < 2 ^ n) :
    cnotPerm (2 ^ c) (2 ^ u) i < 2 ^ n := by
  unfold cnotPerm
  split
  · exact xor_two_pow_lt hi hu
  · exact hi

theorem getD_replicate_zero (len j : ℕ) : (List.replicate len (0 : ℂ)).getD j 0 = 0 := by
  rw [List.getD_eq_getElem?_getD, List.getElem?_replicate]
  split <;> rfl

theorem cnotBody_length (cm tm : ℕ) (old acc : List ℂ) (i : ℕ) :
    (cnotBody cm tm old acc i).length = acc.length := by
  unfold cnotBody
  simp

theorem cnotFold_length (cm tm : ℕ) (old : List ℂ) (l : List ℕ) (acc : List ℂ) :
    (l.foldl (cnotBody cm tm old) acc).length = acc.length := by
  induction l generalizing acc with
  | nil => rfl
  | cons x xs ih => rw [List.foldl_cons, ih, cnotBody_length]

theorem cnotFold_getD {n c u : ℕ} (old : List ℂ) (hu : u < n) (hcu : c ≠ u)
    (hlen : old.length = 2 ^ n) :
    ∀ k, k ≤ 2 ^ n → ∀ j,
      ((List.range k).foldl (cnotBody (2 ^ c) (2 ^ u) old)
          (List.replicate old.length 0)).getD j 0 =
        if cnotPerm (2 ^ c) (2 ^ u) j < k then old.getD (cnotPerm (2 ^ c) (2 ^ u) j) 0
        else 0 := by
  intro k
  induction k with
  | zero =>
    intro _ j
    simp [getD_replicate_zero]
  | succ k ih =>
    intro hk j
    have hklt : k < 2 ^ n := hk
    have hk' : k ≤ 2 ^ n := le_of_lt hklt
    rw [List.range_succ, List.foldl_append, List.foldl_cons, List.foldl_nil]
    have hreslen : ((List.range k).foldl (cnotBody (2 ^ c) (2 ^ u) old)
        (List.replicate old.length 0)).length = 2 ^ n := by
      rw [cnotFold_length, List.length_replicate, hlen]
    set res := (List.range k).foldl (cnotBody (2 ^ c) (2 ^ u) old)
      (List.replicate old.length 0) with hres
    have hdlt : cnotPerm (2 ^ c) (2 ^ u) k < 2 ^ n := cnotPerm_lt hu hklt
    show (res.set (cnotPerm (2 ^ c) (2 ^ u) k)
        (res.getD (cnotPerm (2 ^ c) (2 ^ u) k) 0 + old.getD k 0)).getD j 0 = _
    rcases eq_or_ne j (cnotPerm (2 ^ c) (2 ^ u) k) with rfl | hjd
    · rw [getD_set_self res (by rw [hreslen]; exact hdlt)]
      rw [ih hk' (cnotPerm (2 ^ c) (2 ^ u) k), cnotPerm_invol hcu]
      rw [if_neg (lt_irrefl k), if_pos (Nat.lt_succ_self k), zero_add]
    · rw [getD_set_ne _ (Ne.symm hjd), ih hk' j]
      congr 1
      apply propext
      constructor
      · intro h
        exact Nat.lt_succ_of_lt h
      · intro h
        refine lt_of_le_of_ne (Nat.lt_succ_iff.mp h) ?_
        intro hcontra
        apply hjd
        have := congrArg (cnotPerm (2 ^ c) (2 ^ u)) hcontra
        rwa [cnotPerm_invol hcu] at this

theorem cnotLoop_length (cm tm : ℕ) (old : List ℂ) :
    (cnotLoop cm tm old).length = old.length := by
  unfold cnotLoop
  rw [cnotFold_length, List.length_replicate]

theorem cnotLoop_getD {n c u : ℕ} (old : List ℂ) (hu : u < n) (hcu : c ≠ u)
    (hlen : old.length = 2 ^ n) (j : ℕ) :
    (cnotLoop (2 ^ c) (2 ^ u) old).getD j 0 =
      if j < 2 ^ n then old.getD (cnotPerm (2 ^ c) (2 ^ u) j) 0 else 0 := by
  unfold cnotLoop
  rw [show List.range old.length = List.range (2 ^ n) from by rw [hlen]]
  rw [cnotFold_getD old hu hcu hlen (2 ^ n) le_rfl j]
  congr 1
  apply propext
  constructor
  · intro h
    have := @cnotPerm_lt n c u hu (cnotPerm (2 ^ c) (2 ^ u) j) h
    rwa [cnotPerm_invol hcu] at this
  · intro h
    exact cnotPerm_lt hu h

/-! ## Characterization of the CZ loop -/

theorem czBody_length (cm tm : ℕ) (old acc : List ℂ) (i : ℕ) :
    (czBody cm tm old acc i).length = acc.length := by
  unfold czBody
  split <;> simp

theorem czFold_length (cm tm : ℕ) (old : List ℂ) (l : List ℕ) (acc : List ℂ) :
    (l.foldl (czBody cm tm old) acc).length = acc.length := by
  induction l generalizing acc with
  | nil => rfl
  | cons x xs ih => rw [List.foldl_cons, ih, czBody_length]

theorem czFold_getD (cm tm : ℕ) (old : List ℂ) :
    ∀ k, k ≤ old.length → ∀ j,
      ((List.range k).foldl (czBody cm tm old) old).getD j 0 =
        if j < k ∧ j &&& cm ≠ 0 ∧ j &&& tm ≠ 0 then -(old.getD j 0) else old.getD j 0 := by
  intro k
  induction k with
  | zero =>
    intro _ j
    simp
  | succ k ih =>
    intro hk j
    have hklt : k < old.length := hk
    have hk' : k ≤ old.length := le_of_lt hklt
    rw [List.range_succ, List.foldl_append, List.foldl_cons, List.foldl_nil]
    have hreslen : ((List.range k).foldl (czBody cm tm old) old).length = old.length := by
      rw [czFold_length]
    set res := (List.range k).foldl (czBody cm tm old) old with hres
    by_cases hcond : k &&& cm ≠ 0 ∧ k &&& tm ≠ 0
    · rw [czBody, if_pos hcond]
      rcases eq_or_ne j k with rfl | hjk
      · rw [getD_set_self res (by rw [hreslen]; exact hklt)]
        rw [if_pos ⟨Nat.lt_succ_self j, hcond⟩]
      · rw [getD_set_ne _ (Ne.symm hjk), ih hk' j]
        congr 1
        apply propext
        constructor
        · rintro ⟨h1, h2⟩
          exact ⟨Nat.lt_succ_of_lt h1, h2⟩
        · rintro ⟨h1, h2⟩
          exact ⟨lt_of_le_of_ne (Nat.lt_succ_iff.mp h1) hjk, h2⟩
    · rw [czBody, if_neg hcond, ih hk' j]
      congr 1
      apply propext
      constructor
      · rintro ⟨h1, h2⟩
        exact ⟨Nat.lt_succ_of_lt h1, h2⟩
      · rintro ⟨h1, h2⟩
        refine ⟨lt_of_le_of_ne (Nat.lt_succ_iff.mp h1) ?_, h2⟩
        intro hcontra
        rw [hcontra] at h2
        exact hcond h2

theorem czLoop_length (cm tm : ℕ) (old : List ℂ) :
    (czLoop cm tm old).length = old.length := by
  unfold czLoop
  rw [czFold_length]

theorem czLoop_getD (cm tm : ℕ) (old : List ℂ) (j : ℕ) :
    (czLoop cm tm old).getD j 0 =
      if j < old.length ∧ j &&& cm ≠ 0 ∧ j &&& tm ≠ 0 then -(old.getD j 0)
      else old.getD j 0 := by
  unfold czLoop
  rw [czFold_getD cm tm old old.length le_rfl j]

theorem cnotLoop_normSum {n c u : ℕ} (old : List ℂ) (hu : u < n) (hcu : c ≠ u)
    (hlen : old.length = 2 ^ n) :
    normSum (cnotLoop (2 ^ c) (2 ^ u) old) = normSum old := by
  unfold normSum
  rw [map_sum_eq_range_sum, map_sum_eq_range_sum, cnotLoop_length, hlen]
  rw [Finset.sum_congr rfl (fun j hj => by
    rw [cnotLoop_getD old hu hcu hlen j, if_pos (Finset.mem_range.mp hj)])]
  apply Finset.sum_nbij' (cnotPerm (2 ^ c) (2 ^ u)) (cnotPerm (2 ^ c) (2 ^ u))
  · intro a ha
    exact Finset.mem_range.mpr (cnotPerm_lt hu (Finset.mem_range.mp ha))
  · intro a ha
    exact Finset.mem_range.mpr (cnotPerm_lt hu (Finset.mem_range.mp ha))
  · intro a _
    exact cnotPerm_invol hcu a
  · intro a _
    exact cnotPerm_invol hcu a
  · intro a _
    rfl

theorem czLoop_normSum (cm tm : ℕ) (old : List ℂ) :
    normSum (czLoop cm tm old) = normSum old := by
  unfold normSum
  rw [map_sum_eq_range_sum, map_sum_eq_range_sum, czLoop_length]
  apply Finset.sum_congr rfl
  intro j _
  rw [czLoop_getD]
  split
  · rw [Complex.abs.map_neg]
  · rfl

/-! ## Circuit-level consequences for gates -/

theorem sub_one_sub_lt {n : ℕ} (k : ℕ) (hn : 0 < n) : n - 1 - k < n :=
  lt_of_le_of_lt (Nat.sub_le _ _) (Nat.sub_lt hn one_pos)

theorem applySingleQubitGate_ok {qc : QuantumCircuit} (gate : GateMatrix) {q : ℤ}
    (h0 : 0 ≤ q) (hq : q < (qc.num_qubits : ℤ)) :
    applySingleQubitGate qc gate q =
      (qc.withState (gateLoop gate (2 ^ (qc.num_qubits - 1 - q.toNat)) qc.state), .ok ()) := by
  unfold applySingleQubitGate
  rw [if_neg (by push_neg; exact ⟨h0, hq⟩), Nat.one_shiftLeft]

theorem applySingleQubitGate_normSum {qc : QuantumCircuit} (gate : GateMatrix) {q : ℤ}
    (h0 : 0 ≤ q) (hq : q < (qc.num_qubits : ℤ))
    (hlen : qc.state.length = 2 ^ qc.num_qubits) (hU : IsUnitaryCols gate) :
    normSum (applySingleQubitGate qc gate q).1.state = normSum qc.state ∧
      (applySingleQubitGate qc gate q).1.state.length = 2 ^ qc.num_qubits := by
  rw [applySingleQubitGate_ok gate h0 hq]
  have hn : 0 < qc.num_qubits := by omega
  have ht : qc.num_qubits - 1 - q.toNat < qc.num_qubits := sub_one_sub_lt _ hn
  constructor
  · exact gateLoop_normSum gate qc.state ht hlen hU
  · rw [QuantumCircuit.withState, gateLoop_length, hlen]

/-! ## The descending sort and the selection loop -/

theorem sortInsert_perm (x : List ℕ × ℝ) (l : List (List ℕ × ℝ)) :
    List.Perm (sortInsert x l) (x :: l) := by
  induction l with
  | nil => exact List.Perm.refl _
  | cons y ys ih =>
    unfold sortInsert
    split
    · exact List.Perm.trans (ih.cons y) (List.Perm.swap x y ys)
    · exact List.Perm.refl _

theorem sortDescPairs_perm (l : List (List ℕ × ℝ)) : List.Perm (sortDescPairs l) l := by
  induction l with
  | nil => exact List.Perm.refl _
  | cons x xs ih =>
    unfold sortDescPairs
    exact List.Perm.trans (sortInsert_perm x (sortDescPairs xs)) (ih.cons x)

theorem pickOutcome_pos {rand : ℝ} :
    ∀ (items : List (List ℕ × ℝ)) (c : ℝ), c ≤ rand →
      ∀ {k : List ℕ}, pickOutcome rand c items = some k →
        ∃ p, (k, p) ∈ items ∧ 0 < p := by
  intro items
  induction items with
  | nil =>
    intro c _ k h
    exact absurd h (by simp [pickOutcome])
  | cons item rest ih =>
    intro c hc k h
    rw [pickOutcome] at h
    by_cases hlt : rand < c + item.2
    · rw [if_pos hlt] at h
      refine ⟨item.2, ?_, by linarith⟩
      rw [← Option.some_inj.mp h]
      exact List.mem_cons_self item rest
    · rw [if_neg hlt] at h
      obtain ⟨p, hmem, hp⟩ := ih (c + item.2) (by push_neg at hlt; exact hlt) h
      exact ⟨p, List.mem_cons_of_mem item hmem, hp⟩

theorem pickOutcome_isSome {rand : ℝ} :
    ∀ (items : List (List ℕ × ℝ)) (c : ℝ), c ≤ rand →
      rand < c + (items.map Prod.snd).sum → pickOutcome rand c items ≠ none := by
  intro items
  induction items with
  | nil =>
    intro c hc hsum
    rw [List.map_nil, List.sum_nil, add_zero] at hsum
    exact absurd hc (not_le.mpr hsum)
  | cons item rest ih =>
    intro c hc hsum
    rw [pickOutcome]
    by_cases hlt : rand < c + item.2
    · rw [if_pos hlt]
      exact Option.some_ne_none _
    · rw [if_neg hlt]
      push_neg at hlt
      apply ih (c + item.2) hlt
      rw [List.map_cons, List.sum_cons, ← add_assoc] at hsum
      exact hsum

theorem pickOutcome_skip_zeros {rand : ℝ} {k₀ : List ℕ} {p₀ : ℝ}
    (post : List (List ℕ × ℝ)) :
    ∀ (pre : List (List ℕ × ℝ)) (c : ℝ), (∀ pair ∈ pre, pair.2 = 0) →
      c ≤ rand → rand < c + p₀ →
      pickOutcome rand c (pre ++ (k₀, p₀) :: post) = some k₀ := by
  intro pre
  induction pre with
  | nil =>
    intro c _ _ hlt
    rw [List.nil_append, pickOutcome, if_pos hlt]
  | cons pair rest ih =>
    intro c hzero hc hlt
    rw [List.cons_append, pickOutcome]
    have hz : pair.2 = 0 := hzero pair (List.mem_cons_self pair rest)
    rw [hz, add_zero, if_neg (not_lt.mpr hc)]
    exact ih c (fun x hx => hzero x (List.mem_cons_of_mem pair hx)) hc hlt

/-! ## The outcome distribution -/

theorem mem_keysList {n : ℕ} {qs : List ℕ} {len : ℕ} {k : List ℕ} :
    k ∈ outcomeKeysList n qs len ↔ ∃ i, i < len ∧ bitsOf n qs i = k := by
  unfold outcomeKeysList
  rw [List.mem_dedup, List.mem_map]
  constructor
  · rintro ⟨i, hi, rfl⟩
    exact ⟨i, List.mem_range.mp hi, rfl⟩
  · rintro ⟨i, hi, rfl⟩
    exact ⟨i, List.mem_range.mpr hi, rfl⟩

/-- The probability masses of the distinct outcome keys add up to the total
squared magnitude of the state. -/
theorem sum_outcomeProb (n : ℕ) (qs : List ℕ) (state : List ℂ) :
    ((outcomeKeysList n qs state.length).map (outcomeProb n qs state)).sum
      = normSum state := by
  unfold outcomeKeysList
  rw [← List.sum_toFinset _ (List.nodup_dedup _)]
  unfold normSum
  rw [map_sum_eq_range_sum]
  unfold outcomeProb
  apply Finset.sum_fiberwise_of_maps_to
  intro i hi
  rw [List.mem_toFinset, List.mem_dedup, List.mem_map]
  exact ⟨i, hi, rfl⟩

theorem sortedItems_perm (n : ℕ) (qs : List ℕ) (state : List ℂ) :
    List.Perm (sortedItems n qs state)
      ((outcomeKeysList n qs state.length).map
        (fun k => (k, outcomeProb n qs state k))) :=
  sortDescPairs_perm _

theorem mem_sortedItems {n : ℕ} {qs : List ℕ} {state : List ℂ} {pair : List ℕ × ℝ} :
    pair ∈ sortedItems n qs state ↔
      pair.1 ∈ outcomeKeysList n qs state.length ∧
        pair.2 = outcomeProb n qs state pair.1 := by
  rw [(sortedItems_perm n qs state).mem_iff, List.mem_map]
  constructor
  · rintro ⟨k, hk, rfl⟩
    exact ⟨hk, rfl⟩
  · rintro ⟨h1, h2⟩
    refine ⟨pair.1, h1, ?_⟩
    rw [← h2]

theorem sortedItems_snd_sum (n : ℕ) (qs : List ℕ) (state : List ℂ) :
    ((sortedItems n qs state).map Prod.snd).sum = normSum state := by
  rw [List.Perm.sum_eq ((sortedItems_perm n qs state).map Prod.snd)]
  rw [List.map_map]
  exact sum_outcomeProb n qs state

/-- For a unit-norm state and a draw in `[0, 1)` the selection loop always
fires (the fallback is unreachable), and the selected outcome has strictly
positive mass. -/
theorem chosenOutcome_spec {n : ℕ} {qs : List ℕ} {state : List ℂ} {rand : ℝ}
    (hsum : normSum state = 1) (hr0 : 0 ≤ rand) (hr1 : rand < 1) :
    pickOutcome rand 0 (sortedItems n qs state) =
        some (chosenOutcome n qs state rand) ∧
      chosenOutcome n qs state rand ∈ outcomeKeysList n qs state.length ∧
      0 < outcomeProb n qs state (chosenOutcome n qs state rand) := by
  have hns : pickOutcome rand 0 (sortedItems n qs state) ≠ none := by
    apply pickOutcome_isSome _ 0 hr0
    rw [sortedItems_snd_sum, hsum, zero_add]
    exact hr1
  obtain ⟨k, hk⟩ := Option.ne_none_iff_exists'.mp hns
  have hco : chosenOutcome n qs state rand = k := by
    unfold chosenOutcome
    rw [hk]
  obtain ⟨p, hmem, hp⟩ := pickOutcome_pos _ 0 hr0 hk
  obtain ⟨hkey, hpe⟩ := mem_sortedItems.mp hmem
  rw [hco]
  refine ⟨hk, hkey, ?_⟩
  rw [← hpe]
  exact hp

/-! ## The collapsed state -/

theorem getD_map_range (f : ℕ → ℂ) (len j : ℕ) :
    ((List.range len).map f).getD j 0 = if j < len then f j else 0 := by
  rcases Nat.lt_or_ge j len with h | h
  · rw [if_pos h, List.getD_eq_getElem?_getD, List.getElem?_map, List.getElem?_range h]
    rfl
  · rw [if_neg (not_lt.mpr h), List.getD_eq_getElem?_getD, List.getElem?_map]
    rw [List.getElem?_eq_none (by simpa using h)]
    rfl

theorem collapsedState_length (n : ℕ) (qs : List ℕ) (state : List ℂ) (rand : ℝ) :
    (collapsedState n qs state rand).length = state.length := by
  simp only [collapsedState]
  split <;> simp

theorem collapsedState_getD {n : ℕ} {qs : List ℕ} {state : List ℂ} {rand : ℝ}
    (hp : 0 < outcomeProb n qs state (chosenOutcome n qs state rand)) (j : ℕ) :
    (collapsedState n qs state rand).getD j 0 =
      if j < state.length ∧ bitsOf n qs j = chosenOutcome n qs state rand then
        state.getD j 0 /
          ((Real.sqrt (outcomeProb n qs state (chosenOutcome n qs state rand)) : ℝ) : ℂ)
      else 0 := by
  unfold collapsedState
  rw [if_pos hp, List.map_map, getD_map_range]
  by_cases hj : j < state.length
  · rw [if_pos hj]
    by_cases hb : bitsOf n qs j = chosenOutcome n qs state rand
    · rw [if_pos ⟨hj, hb⟩]
      show (if bitsOf n qs j = chosenOutcome n qs state rand then state.getD j 0 else 0) / _ = _
      rw [if_pos hb]
    · rw [if_neg (by rintro ⟨_, h⟩; exact hb h)]
      show (if bitsOf n qs j = chosenOutcome n qs state rand then state.getD j 0 else 0) / _ = _
      rw [if_neg hb, zero_div]
  · rw [if_neg hj, if_neg (by rintro ⟨h, _⟩; exact hj h)]

theorem sq_abs_div_sqrt {p : ℝ} (hp : 0 < p) (a : ℂ) :
    Complex.abs (a / ((Real.sqrt p : ℝ) : ℂ)) ^ 2 = Complex.abs a ^ 2 / p := by
  rw [map_div₀ Complex.abs, div_pow, Complex.abs_ofReal,
    abs_of_nonneg (Real.sqrt_nonneg p), Real.sq_sqrt hp.le]

/-- The mass the collapsed state assigns to each outcome key: 1 at the
chosen outcome, 0 everywhere else. -/
theorem collapsedState_outcomeProb {n : ℕ} {qs : List ℕ} {state : List ℂ} {rand : ℝ}
    (hp : 0 < outcomeProb n qs state (chosenOutcome n qs state rand)) (k : List ℕ) :
    outcomeProb n qs (collapsedState n qs state rand) k =
      if k = chosenOutcome n qs state rand then 1 else 0 := by
  rcases eq_or_ne k (chosenOutcome n qs state rand) with rfl | hk
  · rw [if_pos rfl]
    unfold outcomeProb
    rw [collapsedState_length]
    rw [Finset.sum_congr rfl (fun j hj => by
      obtain ⟨hjr, hjb⟩ := Finset.mem_filter.mp hj
      rw [collapsedState_getD hp j, if_pos ⟨Finset.mem_range.mp hjr, hjb⟩,
        sq_abs_div_sqrt hp])]
    rw [← Finset.sum_div]
    rw [show ∑ j ∈ (Finset.range state.length).filter
        (fun i => bitsOf n qs i = chosenOutcome n qs state rand),
        Complex.abs (state.getD j 0) ^ 2 =
      outcomeProb n qs state (chosenOutcome n qs state rand) from rfl]
    exact div_self hp.ne'
  · rw [if_neg hk]
    unfold outcomeProb
    rw [collapsedState_length]
    apply Finset.sum_eq_zero
    intro j hj
    obtain ⟨_, hjb⟩ := Finset.mem_filter.mp hj
    rw [collapsedState_getD hp j, if_neg (by rintro ⟨_, h⟩; exact hk (hjb ▸ h ▸ rfl))]
    simp

/-- The collapsed state is again normalised (the chosen mass is positive). -/
theorem collapsedState_normSum {n : ℕ} {qs : List ℕ} {state : List ℂ} {rand : ℝ}
    (hp : 0 < outcomeProb n qs state (chosenOutcome n qs state rand)) :
    normSum (collapsedState n qs state rand) = 1 := by
  unfold normSum
  rw [map_sum_eq_range_sum, collapsedState_length]
  have hterm : ∀ j ∈ Finset.range state.length,
      Complex.abs ((collapsedState n qs state rand).getD j 0) ^ 2 =
        if bitsOf n qs j = chosenOutcome n qs state rand then
          Complex.abs (state.getD j 0) ^ 2 /
            outcomeProb n qs state (chosenOutcome n qs state rand)
        else 0 := by
    intro j hj
    rw [collapsedState_getD hp j]
    by_cases hb : bitsOf n qs j = chosenOutcome n qs state rand
    · rw [if_pos ⟨Finset.mem_range.mp hj, hb⟩, if_pos hb, sq_abs_div_sqrt hp]
    · rw [if_neg (by rintro ⟨_, h⟩; exact hb h), if_neg hb, map_zero]
      norm_num
  rw [Finset.sum_congr rfl hterm, ← Finset.sum_filter, ← Finset.sum_div]
  rw [show (∑ j ∈ (Finset.range state.length).filter
      (fun j => bitsOf n qs j = chosenOutcome n qs state rand),
      Complex.abs (state.getD j 0) ^ 2) =
    outcomeProb n qs state (chosenOutcome n qs state rand) from rfl]
  exact div_self hp.ne'

theorem list_ext_getD {α : Type} (d : α) {l₁ l₂ : List α} (hlen : l₁.length = l₂.length)
    (h : ∀ i, i < l₂.length → l₁.getD i d = l₂.getD i d) : l₁ = l₂ := by
  apply List.ext_getElem hlen
  intro i h₁ h₂
  have hh := h i h₂
  rw [List.getD_eq_getElem?_getD, List.getD_eq_getElem?_getD,
    List.getElem?_eq_getElem h₁, List.getElem?_eq_getElem h₂] at hh
  simpa using hh

theorem dedup_length_eq_iff {l : List ℤ} : l.dedup.length = l.length ↔ l.Nodup := by
  constructor
  · intro h
    have hsub : l.dedup.Sublist l := List.dedup_sublist l
    have heq := hsub.eq_of_length h
    rw [← heq]
    exact List.nodup_dedup l
  · intro h
    rw [List.dedup_eq_self.mpr h]

/-- `_collapse_qubits` on validated, non-empty targets reaches the sampling
and collapse stage. -/
theorem collapseQubits_ok {n : ℕ} {state : List ℂ} {qubits : List ℤ} {rand : ℝ}
    (hvalid : ∀ q ∈ qubits, 0 ≤ q ∧ q < (n : ℤ)) (hnodup : qubits.Nodup)
    (hne : qubits ≠ []) :
    collapseQubits n state qubits rand =
      .ok (chosenOutcome n (qubits.map Int.toNat) state rand,
           collapsedState n (qubits.map Int.toNat) state rand) := by
  unfold collapseQubits
  rw [if_neg (by
    intro hcontra
    rw [List.any_eq_true] at hcontra
    obtain ⟨q, hq, hqc⟩ := hcontra
    obtain ⟨h0, hn⟩ := hvalid q hq
    have hqc2 : q < 0 ∨ (n : ℤ) ≤ q := by simpa using hqc
    rcases hqc2 with h | h
    · exact absurd h (not_lt.mpr h0)
    · exact absurd h (not_le.mpr hn))]
  rw [if_neg (fun h => h (dedup_length_eq_iff.mpr hnodup)), if_neg hne]

theorem collapseQubits_error_index {n : ℕ} {state : List ℂ} {qubits : List ℤ} {rand : ℝ}
    (h : ∃ q ∈ qubits, q < 0 ∨ (n : ℤ) ≤ q) :
    collapseQubits n state qubits rand = .error .indexOutOfRange := by
  unfold collapseQubits
  rw [if_pos]
  rw [List.any_eq_true]
  obtain ⟨q, hq, hqc⟩ := h
  refine ⟨q, hq, ?_⟩
  simp only [Bool.or_eq_true, decide_eq_true_eq]
  exact hqc

theorem collapseQubits_error_dup {n : ℕ} {state : List ℂ} {qubits : List ℤ} {rand : ℝ}
    (hvalid : ∀ q ∈ qubits, 0 ≤ q ∧ q < (n : ℤ)) (hdup : ¬ qubits.Nodup) :
    collapseQubits n state qubits rand = .error .invalidArgument := by
  unfold collapseQubits
  rw [if_neg (by
    intro hcontra
    rw [List.any_eq_true] at hcontra
    obtain ⟨q, hq, hqc⟩ := hcontra
    obtain ⟨h0, hn⟩ := hvalid q hq
    have hqc2 : q < 0 ∨ (n : ℤ) ≤ q := by simpa using hqc
    rcases hqc2 with h | h
    · exact absurd h (not_lt.mpr h0)
    · exact absurd h (not_le.mpr hn))]
  rw [if_pos (fun h => hdup (dedup_length_eq_iff.mp h))]

theorem collapseQubits_empty {n : ℕ} {state : List ℂ} {rand : ℝ} :
    collapseQubits n state [] rand = .ok ([], state) := by
  unfold collapseQubits
  rw [if_neg (by simp), if_neg (by simp), if_pos rfl]

/-- Measuring the same subset twice in a row: the second call selects the
same outcome for every draw in `[0, 1)` and leaves the vector unchanged. -/
theorem collapse_idempotent {n : ℕ} {qs : List ℕ} {state : List ℂ} {r1 r2 : ℝ}
    (hsum : normSum state = 1) (hr10 : 0 ≤ r1) (hr11 : r1 < 1)
    (hr20 : 0 ≤ r2) (hr21 : r2 < 1) :
    chosenOutcome n qs (collapsedState n qs state r1) r2 =
        chosenOutcome n qs state r1 ∧
      collapsedState n qs (collapsedState n qs state r1) r2 =
        collapsedState n qs state r1 := by
  obtain ⟨_, _, hp1⟩ := @chosenOutcome_spec n qs state r1 hsum hr10 hr11
  have hsum' : normSum (collapsedState n qs state r1) = 1 := collapsedState_normSum hp1
  obtain ⟨_, _, hp2⟩ :=
    @chosenOutcome_spec n qs (collapsedState n qs state r1) r2 hsum' hr20 hr21
  have hc2 : chosenOutcome n qs (collapsedState n qs state r1) r2 =
      chosenOutcome n qs state r1 := by
    by_cases hc : chosenOutcome n qs (collapsedState n qs state r1) r2 =
        chosenOutcome n qs state r1
    · exact hc
    · have hzero := collapsedState_outcomeProb hp1
        (chosenOutcome n qs (collapsedState n qs state r1) r2)
      rw [if_neg hc] at hzero
      rw [hzero] at hp2
      exact absurd hp2 (lt_irrefl 0)
  refine ⟨hc2, ?_⟩
  have hprob1 : outcomeProb n qs (collapsedState n qs state r1)
      (chosenOutcome n qs (collapsedState n qs state r1) r2) = 1 := by
    rw [hc2, collapsedState_outcomeProb hp1, if_pos rfl]
  apply list_ext_getD 0
  · rw [collapsedState_length]
  · intro j hj
    rw [collapsedState_getD hp2 j, hprob1, Real.sqrt_one, Complex.ofReal_one, div_one]
    rw [hc2]
    by_cases hb : bitsOf n qs j = chosenOutcome n qs state r1
    · rw [if_pos ⟨hj, hb⟩]
    · rw [if_neg (by rintro ⟨_, h⟩; exact hb h)]
      rw [collapsedState_getD hp1 j, if_neg (by rintro ⟨_, h⟩; exact hb h)]

/-! ## Circuit-level preservation of the state invariants -/

@[simp] theorem withState_num_qubits (qc : QuantumCircuit) (s : List ℂ) :
    (qc.withState s).num_qubits = qc.num_qubits := rfl

@[simp] theorem withState_state (qc : QuantumCircuit) (s : List ℂ) :
    (qc.withState s).state = s := rfl

@[simp] theorem withState_measurements (qc : QuantumCircuit) (s : List ℂ) :
    (qc.withState s).measurements = qc.measurements := rfl

@[simp] theorem withStateMeas_num_qubits (qc : QuantumCircuit) (s : List ℂ) (m : List ℕ) :
    (qc.withStateMeas s m).num_qubits = qc.num_qubits := rfl

@[simp] theorem withStateMeas_state (qc : QuantumCircuit) (s : List ℂ) (m : List ℕ) :
    (qc.withStateMeas s m).state = s := rfl

@[simp] theorem withStateMeas_measurements (qc : QuantumCircuit) (s : List ℂ) (m : List ℕ) :
    (qc.withStateMeas s m).measurements = m := rfl

@[simp] theorem withMeas_num_qubits (qc : QuantumCircuit) (m : List ℕ) :
    (qc.withMeas m).num_qubits = qc.num_qubits := rfl

@[simp] theorem withMeas_state (qc : QuantumCircuit) (m : List ℕ) :
    (qc.withMeas m).state = qc.state := rfl

@[simp] theorem withMeas_measurements (qc : QuantumCircuit) (m : List ℕ) :
    (qc.withMeas m).measurements = m := rfl

theorem applySingleQubitGate_preserved (qc : QuantumCircuit) (gate : GateMatrix) (q : ℤ)
    (hlen : qc.state.length = 2 ^ qc.num_qubits) (hsum : normSum qc.state = 1)
    (hU : IsUnitaryCols gate) :
    (applySingleQubitGate qc gate q).1.num_qubits = qc.num_qubits ∧
    (applySingleQubitGate qc gate q).1.state.length = 2 ^ qc.num_qubits ∧
    normSum (applySingleQubitGate qc gate q).1.state = 1 := by
  by_cases hvalid : q < 0 ∨ (qc.num_qubits : ℤ) ≤ q
  · unfold applySingleQubitGate
    rw [if_pos hvalid]
    exact ⟨rfl, hlen, hsum⟩
  · push_neg at hvalid
    obtain ⟨h0, hq⟩ := hvalid
    obtain ⟨hns, hl⟩ := applySingleQubitGate_normSum gate h0 hq hlen hU
    rw [applySingleQubitGate_ok gate h0 hq] at hns hl
    rw [applySingleQubitGate_ok gate h0 hq]
    rw [hsum] at hns
    exact ⟨rfl, hl, hns⟩

theorem apply_cnot_preserved (qc : QuantumCircuit) (c t : ℤ)
    (hlen : qc.state.length = 2 ^ qc.num_qubits) (hsum : normSum qc.state = 1) :
    (apply_cnot qc c t).1.num_qubits = qc.num_qubits ∧
    (apply_cnot qc c t).1.state.length = 2 ^ qc.num_qubits ∧
    normSum (apply_cnot qc c t).1.state = 1 := by
  unfold apply_cnot
  by_cases hct : c = t
  · rw [if_pos hct]
    exact ⟨rfl, hlen, hsum⟩
  · rw [if_neg hct]
    by_cases hvalid : c < 0 ∨ (qc.num_qubits : ℤ) ≤ c ∨ t < 0 ∨ (qc.num_qubits : ℤ) ≤ t
    · rw [if_pos hvalid]
      exact ⟨rfl, hlen, hsum⟩
    · rw [if_neg hvalid]
      push_neg at hvalid
      obtain ⟨hc0, hcn, ht0, htn⟩ := hvalid
      have hn : 0 < qc.num_qubits := by omega
      have hcexp : qc.num_qubits - 1 - c.toNat < qc.num_qubits := sub_one_sub_lt _ hn
      have htexp : qc.num_qubits - 1 - t.toNat < qc.num_qubits := sub_one_sub_lt _ hn
      have hne : qc.num_qubits - 1 - c.toNat ≠ qc.num_qubits - 1 - t.toNat := by
        intro hcontra
        apply hct
        omega
      rw [Nat.one_shiftLeft, Nat.one_shiftLeft]
      refine ⟨rfl, ?_, ?_⟩
      · rw [withState_state, cnotLoop_length, hlen]
      · rw [withState_state, cnotLoop_normSum qc.state htexp hne hlen, hsum]

theorem apply_cz_preserved (qc : QuantumCircuit) (c t : ℤ)
    (hlen : qc.state.length = 2 ^ qc.num_qubits) (hsum : normSum qc.state = 1) :
    (apply_cz qc c t).1.num_qubits = qc.num_qubits ∧
    (apply_cz qc c t).1.state.length = 2 ^ qc.num_qubits ∧
    normSum (apply_cz qc c t).1.state = 1 := by
  unfold apply_cz
  by_cases hct : c = t
  · rw [if_pos hct]
    exact ⟨rfl, hlen, hsum⟩
  · rw [if_neg hct]
    by_cases hvalid : c < 0 ∨ (qc.num_qubits : ℤ) ≤ c ∨ t < 0 ∨ (qc.num_qubits : ℤ) ≤ t
    · rw [if_pos hvalid]
      exact ⟨rfl, hlen, hsum⟩
    · rw [if_neg hvalid]
      refine ⟨rfl, ?_, ?_⟩
      · rw [withState_state, czLoop_length, hlen]
      · rw [withState_state, czLoop_normSum, hsum]

/-! ## Equations for the measurement wrappers -/

theorem measure_eq_of_collapse {qc : QuantumCircuit} {q : ℤ} {rand : ℝ} {o : List ℕ}
    {s : List ℂ} (h : collapseQubits qc.num_qubits qc.state [q] rand = .ok (o, s)) :
    measure qc q rand = (qc.withStateMeas s (if o ≠ [] then [decVal o] else []),
      .ok (if o ≠ [] then decVal o else 0)) := by
  unfold measure
  rw [h]

theorem measure_eq_of_error {qc : QuantumCircuit} {q : ℤ} {rand : ℝ} {e : SimError}
    (h : collapseQubits qc.num_qubits qc.state [q] rand = .error e) :
    measure qc q rand = (qc, .error e) := by
  unfold measure
  rw [h]

theorem measure_subset_eq_of_collapse {qc : QuantumCircuit} {qubits : List ℤ} {rand : ℝ}
    {o : List ℕ} {s : List ℂ}
    (h : collapseQubits qc.num_qubits qc.state qubits rand = .ok (o, s)) :
    measure_subset qc qubits rand = (qc.withStateMeas s o, .ok o) := by
  unfold measure_subset
  rw [h]

theorem measure_subset_eq_of_error {qc : QuantumCircuit} {qubits : List ℤ} {rand : ℝ}
    {e : SimError} (h : collapseQubits qc.num_qubits qc.state qubits rand = .error e) :
    measure_subset qc qubits rand = (qc, .error e) := by
  unfold measure_subset
  rw [h]

theorem measureAllGo_cons_ok {rands : ℕ → ℝ} {q : ℕ} {rest : List ℕ} {step : ℕ}
    {qc : QuantumCircuit} {bits : List ℕ} {o : List ℕ} {s : List ℂ}
    (h : collapseQubits qc.num_qubits qc.state [(q : ℤ)] (rands step) = .ok (o, s)) :
    measureAllGo rands (q :: rest) step qc bits =
      measureAllGo rands rest (step + 1)
        (qc.withStateMeas s (qc.measurements ++ [if o ≠ [] then decVal o else 0]))
        (bits ++ [if o ≠ [] then decVal o else 0]) := by
  rw [measureAllGo, h]

theorem measure_preserved (qc : QuantumCircuit) (q : ℤ) (rand : ℝ)
    (hlen : qc.state.length = 2 ^ qc.num_qubits) (hsum : normSum qc.state = 1)
    (hr0 : 0 ≤ rand) (hr1 : rand < 1) :
    (measure qc q rand).1.num_qubits = qc.num_qubits ∧
    (measure qc q rand).1.state.length = 2 ^ qc.num_qubits ∧
    normSum (measure qc q rand).1.state = 1 := by
  by_cases hvalid : 0 ≤ q ∧ q < (qc.num_qubits : ℤ)
  · obtain ⟨h0, hq⟩ := hvalid
    rw [measure_eq_of_collapse (collapseQubits_ok (by
        intro x hx
        rw [List.mem_singleton] at hx
        rw [hx]
        exact ⟨h0, hq⟩) (List.nodup_singleton q) (by simp))]
    obtain ⟨_, _, hp⟩ :=
      @chosenOutcome_spec qc.num_qubits ([q].map Int.toNat) qc.state rand hsum hr0 hr1
    refine ⟨rfl, ?_, ?_⟩
    · rw [withStateMeas_state, collapsedState_length, hlen]
    · rw [withStateMeas_state, collapsedState_normSum hp]
  · rw [measure_eq_of_error (collapseQubits_error_index
      ⟨q, List.mem_singleton_self q, by omega⟩)]
    exact ⟨rfl, hlen, hsum⟩

theorem measure_subset_preserved (qc : QuantumCircuit) (qubits : List ℤ) (rand : ℝ)
    (hlen : qc.state.length = 2 ^ qc.num_qubits) (hsum : normSum qc.state = 1)
    (hr0 : 0 ≤ rand) (hr1 : rand < 1) :
    (measure_subset qc qubits rand).1.num_qubits = qc.num_qubits ∧
    (measure_subset qc qubits rand).1.state.length = 2 ^ qc.num_qubits ∧
    normSum (measure_subset qc qubits rand).1.state = 1 := by
  by_cases hvalid : ∀ x ∈ qubits, 0 ≤ x ∧ x < (qc.num_qubits : ℤ)
  · by_cases hnodup : qubits.Nodup
    · by_cases hne : qubits = []
      · rw [hne]
        rw [measure_subset_eq_of_collapse (by rw [collapseQubits_empty])]
        exact ⟨rfl, hlen, hsum⟩
      · rw [measure_subset_eq_of_collapse (collapseQubits_ok hvalid hnodup hne)]
        obtain ⟨_, _, hp⟩ := @chosenOutcome_spec qc.num_qubits
          (qubits.map Int.toNat) qc.state rand hsum hr0 hr1
        refine ⟨rfl, ?_, ?_⟩
        · rw [withStateMeas_state, collapsedState_length, hlen]
        · rw [withStateMeas_state, collapsedState_normSum hp]
    · rw [measure_subset_eq_of_error (collapseQubits_error_dup hvalid hnodup)]
      exact ⟨rfl, hlen, hsum⟩
  · push_neg at hvalid
    obtain ⟨x, hx, hxc⟩ := hvalid
    rw [measure_subset_eq_of_error (collapseQubits_error_index ⟨x, hx, by omega⟩)]
    exact ⟨rfl, hlen, hsum⟩

theorem measureAllGo_preserved (rands : ℕ → ℝ) (hdraws : ∀ i, 0 ≤ rands i ∧ rands i < 1) :
    ∀ (l : List ℕ) (step : ℕ) (qc : QuantumCircuit) (bits : List ℕ),
      (∀ q ∈ l, q < qc.num_qubits) →
      qc.state.length = 2 ^ qc.num_qubits → normSum qc.state = 1 →
      (measureAllGo rands l step qc bits).1.num_qubits = qc.num_qubits ∧
      (measureAllGo rands l step qc bits).1.state.length = 2 ^ qc.num_qubits ∧
      normSum (measureAllGo rands l step qc bits).1.state = 1 := by
  intro l
  induction l with
  | nil =>
    intro step qc bits _ hlen hsum
    exact ⟨rfl, hlen, hsum⟩
  | cons q rest ih =>
    intro step qc bits hql hlen hsum
    have hq : q < qc.num_qubits := hql q (List.mem_cons_self q rest)
    rw [measureAllGo_cons_ok (collapseQubits_ok (by
        intro x hx
        rw [List.mem_singleton] at hx
        rw [hx]
        constructor
        · exact Int.ofNat_nonneg q
        · exact_mod_cast hq) (List.nodup_singleton _) (by simp))]
    obtain ⟨_, _, hp⟩ := @chosenOutcome_spec qc.num_qubits ([((q : ℤ))].map Int.toNat)
      qc.state (rands step) hsum (hdraws step).1 (hdraws step).2
    have hres := ih (step + 1)
      (qc.withStateMeas
        (collapsedState qc.num_qubits ([((q : ℤ))].map Int.toNat) qc.state (rands step))
        (qc.measurements ++ [if chosenOutcome qc.num_qubits ([((q : ℤ))].map Int.toNat)
            qc.state (rands step) ≠ [] then
          decVal (chosenOutcome qc.num_qubits ([((q : ℤ))].map Int.toNat)
            qc.state (rands step)) else 0]))
      (bits ++ [if chosenOutcome qc.num_qubits ([((q : ℤ))].map Int.toNat)
          qc.state (rands step) ≠ [] then
        decVal (chosenOutcome qc.num_qubits ([((q : ℤ))].map Int.toNat)
          qc.state (rands step)) else 0])
      (by
        intro x hx
        rw [withStateMeas_num_qubits]
        exact hql x (List.mem_cons_of_mem q hx))
      (by rw [withStateMeas_num_qubits, withStateMeas_state, collapsedState_length, hlen])
      (by rw [withStateMeas_state]; exact collapsedState_normSum hp)
    rw [withStateMeas_num_qubits] at hres
    exact hres

theorem measure_all_preserved (qc : QuantumCircuit) (rands : ℕ → ℝ)
    (hdraws : ∀ i, 0 ≤ rands i ∧ rands i < 1)
    (hlen : qc.state.length = 2 ^ qc.num_qubits) (hsum : normSum qc.state = 1) :
    (measure_all qc rands).1.num_qubits = qc.num_qubits ∧
    (measure_all qc rands).1.state.length = 2 ^ qc.num_qubits ∧
    normSum (measure_all qc rands).1.state = 1 := by
  unfold measure_all
  have hres := measureAllGo_preserved rands hdraws (List.range qc.num_qubits) 0
    (qc.withMeas []) []
    (by intro x hx; rw [withMeas_num_qubits]; exact List.mem_range.mp hx)
    (by rw [withMeas_num_qubits, withMeas_state]; exact hlen)
    (by rw [withMeas_state]; exact hsum)
  rw [withMeas_num_qubits] at hres
  exact hres

/-- One successful or failing call never breaks the state invariants. -/
theorem runOp_preserved (qc : QuantumCircuit) (op : Op)
    (hlen : qc.state.length = 2 ^ qc.num_qubits) (hsum : normSum qc.state = 1)
    (hdraws : validDraws op) :
    (runOp qc op).1.num_qubits = qc.num_qubits ∧
    (runOp qc op).1.state.length = 2 ^ qc.num_qubits ∧
    normSum (runOp qc op).1.state = 1 := by
  cases op with
  | hadamard q => exact applySingleQubitGate_preserved qc H_GATE q hlen hsum H_GATE_unitary
  | pauliX q => exact applySingleQubitGate_preserved qc X_GATE q hlen hsum X_GATE_unitary
  | pauliY q => exact applySingleQubitGate_preserved qc Y_GATE q hlen hsum Y_GATE_unitary
  | pauliZ q => exact applySingleQubitGate_preserved qc Z_GATE q hlen hsum Z_GATE_unitary
  | sgate q => exact applySingleQubitGate_preserved qc S_GATE q hlen hsum S_GATE_unitary
  | tgate q => exact applySingleQubitGate_preserved qc T_GATE q hlen hsum T_GATE_unitary
  | rx q angle =>
    exact applySingleQubitGate_preserved qc (rxGate angle) q hlen hsum (rxGate_unitary angle)
  | ry q angle =>
    exact applySingleQubitGate_preserved qc (ryGate angle) q hlen hsum (ryGate_unitary angle)
  | rz q angle =>
    exact applySingleQubitGate_preserved qc (rzGate angle) q hlen hsum (rzGate_unitary angle)
  | cnot c t => exact apply_cnot_preserved qc c t hlen hsum
  | cz c t => exact apply_cz_preserved qc c t hlen hsum
  | measureOne q rand => exact measure_preserved qc q rand hlen hsum hdraws.1 hdraws.2
  | measureAllOp rands => exact measure_all_preserved qc rands hdraws hlen hsum
  | measureSubsetOp qs rand =>
    exact measure_subset_preserved qc qs rand hlen hsum hdraws.1 hdraws.2

/-! ## Construction -/

theorem make_ok {nq : ℤ} (h : 1 ≤ nq) :
    QuantumCircuit.make nq =
      .ok ⟨nq.toNat, (List.replicate (2 ^ nq.toNat) (0 : ℂ)).set 0 1, []⟩ := by
  unfold QuantumCircuit.make
  rw [if_neg (not_lt.mpr h)]

theorem initState_length (n : ℕ) :
    ((List.replicate (2 ^ n) (0 : ℂ)).set 0 1).length = 2 ^ n := by
  simp

theorem initState_normSum (n : ℕ) :
    normSum ((List.replicate (2 ^ n) (0 : ℂ)).set 0 1) = 1 := by
  obtain ⟨k, hk⟩ : ∃ k, 2 ^ n = k + 1 := ⟨2 ^ n - 1, by
    have := Nat.two_pow_pos n
    omega⟩
  rw [hk, List.replicate_succ, List.set_cons_zero]
  unfold normSum
  rw [List.map_cons, List.sum_cons, List.map_replicate]
  simp

theorem runSeq_invariant (ops : List Op) :
    ∀ qc : QuantumCircuit, qc.state.length = 2 ^ qc.num_qubits → normSum qc.state = 1 →
      (∀ op ∈ ops, validDraws op) →
      (ops.foldl (fun c op => (runOp c op).1) qc).state.length =
          2 ^ (ops.foldl (fun c op => (runOp c op).1) qc).num_qubits ∧
        normSum (ops.foldl (fun c op => (runOp c op).1) qc).state = 1 := by
  induction ops with
  | nil => exact fun qc h1 h2 _ => ⟨h1, h2⟩
  | cons op rest ih =>
    intro qc h1 h2 hv
    rw [List.foldl_cons]
    obtain ⟨hn, hl, hs⟩ := runOp_preserved qc op h1 h2 (hv op (List.mem_cons_self op rest))
    refine ih _ ?_ hs (fun o ho => hv o (List.mem_cons_of_mem op ho))
    rw [hn]
    exact hl

/-- C1: every gate application and every measurement call with draws in
`[0, 1)` preserves the normalisation invariant `normSum = 1` exactly (the
exact-arithmetic reading of "within tolerance of 1"), and consequently
`sum(probabilities())` is 1 after any sequence of such calls on a circuit
built by the constructor. -/
theorem C1_norm_invariant :
    (∀ (qc : QuantumCircuit) (op : Op), qc.state.length = 2 ^ qc.num_qubits →
      normSum qc.state = 1 → validDraws op →
      normSum (runOp qc op).1.state = 1) ∧
    (∀ (nq : ℤ) (qc₀ : QuantumCircuit) (ops : List Op),
      QuantumCircuit.make nq = .ok qc₀ → (∀ op ∈ ops, validDraws op) →
      (probabilities (ops.foldl (fun c op => (runOp c op).1) qc₀)).sum = 1) := by
  constructor
  · intro qc op h1 h2 h3
    exact (runOp_preserved qc op h1 h2 h3).2.2
  · intro nq qc₀ ops hmake hv
    have h1 : 1 ≤ nq := by
      by_contra hc
      push_neg at hc
      unfold QuantumCircuit.make at hmake
      rw [if_pos hc] at hmake
      exact Except.noConfusion hmake
    rw [make_ok h1] at hmake
    have hqc : qc₀ = ⟨nq.toNat, (List.replicate (2 ^ nq.toNat) (0 : ℂ)).set 0 1, []⟩ :=
      ((Except.ok.injEq _ _).mp hmake).symm
    have hinv := runSeq_invariant ops qc₀
      (by rw [hqc]; exact initState_length nq.toNat)
      (by rw [hqc]; exact initState_normSum nq.toNat) hv
    exact hinv.2

/-! ## Claim C3: the single-qubit gate routine -/

/-- C3: for a valid qubit index and any 2×2 gate, the pair loop leaves at
every index `i` with clear mask bit the first-row combination of the
pre-update pair `{i, i ||| mask}`, and at the partner the second-row
combination — reads always from the snapshot, so pair updates never
interfere; and every named single-qubit and rotation gate dispatches through
this one routine. -/
theorem C3_single_qubit_gate (qc : QuantumCircuit) (gate : GateMatrix) (q : ℤ)
    (h0 : 0 ≤ q) (hq : q < (qc.num_qubits : ℤ))
    (hlen : qc.state.length = 2 ^ qc.num_qubits) :
    (applySingleQubitGate qc gate q).2 = .ok () ∧
    (∀ i < 2 ^ qc.num_qubits, i &&& 2 ^ (qc.num_qubits - 1 - q.toNat) = 0 →
      (applySingleQubitGate qc gate q).1.state.getD i 0 =
          gate.g00 * qc.state.getD i 0 +
            gate.g01 * qc.state.getD (i ||| 2 ^ (qc.num_qubits - 1 - q.toNat)) 0 ∧
        (applySingleQubitGate qc gate q).1.state.getD
            (i ||| 2 ^ (qc.num_qubits - 1 - q.toNat)) 0 =
          gate.g10 * qc.state.getD i 0 +
            gate.g11 * qc.state.getD (i ||| 2 ^ (qc.num_qubits - 1 - q.toNat)) 0) ∧
    apply_hadamard qc q = applySingleQubitGate qc H_GATE q ∧
    apply_pauli_x qc q = applySingleQubitGate qc X_GATE q ∧
    apply_pauli_y qc q = applySingleQubitGate qc Y_GATE q ∧
    apply_pauli_z qc q = applySingleQubitGate qc Z_GATE q ∧
    apply_s qc q = applySingleQubitGate qc S_GATE q ∧
    apply_t qc q = applySingleQubitGate qc T_GATE q ∧
    (∀ angle : ℝ, apply_rx qc q angle = applySingleQubitGate qc (rxGate angle) q ∧
      apply_ry qc q angle = applySingleQubitGate qc (ryGate angle) q ∧
      apply_rz qc q angle = applySingleQubitGate qc (rzGate angle) q) := by
  have hn : 0 < qc.num_qubits := by omega
  have ht : qc.num_qubits - 1 - q.toNat < qc.num_qubits := sub_one_sub_lt _ hn
  rw [applySingleQubitGate_ok gate h0 hq]
  refine ⟨rfl, ?_, rfl, rfl, rfl, rfl, rfl, rfl, fun _ => ⟨rfl, rfl, rfl⟩⟩
  intro i hi hbit
  have tbf : i.testBit (qc.num_qubits - 1 - q.toNat) = false :=
    (and_two_pow_eq_zero_iff _ _).mp hbit
  have hpxor : i ||| 2 ^ (qc.num_qubits - 1 - q.toNat) =
      i ^^^ 2 ^ (qc.num_qubits - 1 - q.toNat) := or_two_pow_of_testBit_false tbf
  have hpbit : (i ||| 2 ^ (qc.num_qubits - 1 - q.toNat)) &&&
      2 ^ (qc.num_qubits - 1 - q.toNat) ≠ 0 := by
    rw [hpxor, and_two_pow_ne_zero_iff, testBit_xor_two_pow, tbf]
    rfl
  constructor
  · rw [withState_state, gateLoop_getD gate qc.state ht hlen i, if_pos hi]
    rw [newAmp, if_pos hbit]
  · rw [withState_state, gateLoop_getD gate qc.state ht hlen _,
      if_pos (or_two_pow_lt hi ht)]
    rw [newAmp, if_neg hpbit, hpxor, xor_two_pow_xor]

/-- Closed instance of C3: Pauli-X on a fresh single qubit succeeds. -/
theorem C3_single_qubit_gate_witness :
    (applySingleQubitGate ⟨1, [1, 0], []⟩ X_GATE 0).2 = .ok () :=
  (C3_single_qubit_gate ⟨1, [1, 0], []⟩ X_GATE 0 (by norm_num) (by norm_num)
    (by norm_num)).1

/-! ## Claim C4: CNOT -/

theorem hadamard_fresh_two_eval :
    (apply_hadamard (⟨2, [1, 0, 0, 0], []⟩ : QuantumCircuit) 0).1 =
      ⟨2, [((1 / Real.sqrt 2 : ℝ) : ℂ), 0, ((1 / Real.sqrt 2 : ℝ) : ℂ), 0], []⟩ := by
  unfold apply_hadamard
  rw [applySingleQubitGate_ok H_GATE (by norm_num) (by norm_num)]
  rw [show (2 : ℕ) ^ (2 - 1 - (0 : ℤ).toNat) = 2 from rfl]
  rw [show gateLoop H_GATE 2 [1, 0, 0, 0] =
    [((1 / Real.sqrt 2 : ℝ) : ℂ), 0, ((1 / Real.sqrt 2 : ℝ) : ℂ), 0] from by
      simp [gateLoop, gateBody, List.range_succ, H_GATE]]
  rfl

theorem bell_probabilities :
    probabilities (apply_cnot (apply_hadamard ⟨2, [1, 0, 0, 0], []⟩ 0).1 0 1).1 =
      [1 / 2, 0, 0, 1 / 2] := by
  have h2 : Real.sqrt 2 * Real.sqrt 2 = 2 := Real.mul_self_sqrt (by norm_num)
  have hcl : cnotLoop 2 1
      [((1 / Real.sqrt 2 : ℝ) : ℂ), 0, ((1 / Real.sqrt 2 : ℝ) : ℂ), 0] =
      [((1 / Real.sqrt 2 : ℝ) : ℂ), 0, 0, ((1 / Real.sqrt 2 : ℝ) : ℂ)] := by
    simp [cnotLoop, cnotBody, List.range_succ]
  have hfull : (apply_cnot (apply_hadamard ⟨2, [1, 0, 0, 0], []⟩ 0).1 0 1).1 =
      ⟨2, [((1 / Real.sqrt 2 : ℝ) : ℂ), 0, 0, ((1 / Real.sqrt 2 : ℝ) : ℂ)], []⟩ := by
    rw [hadamard_fresh_two_eval]
    unfold apply_cnot
    rw [if_neg (by norm_num), if_neg (by norm_num)]
    rw [show (1 : ℕ) <<< (2 - 1 - (0 : ℤ).toNat) = 2 from rfl]
    rw [show (1 : ℕ) <<< (2 - 1 - (1 : ℤ).toNat) = 1 from rfl]
    rw [hcl]
    rfl
  rw [hfull]
  unfold probabilities
  rw [List.map_cons, List.map_cons, List.map_cons, List.map_cons, List.map_nil]
  simp only [Complex.sq_abs, Complex.normSq_ofReal, Complex.normSq_zero]
  rw [div_mul_div_comm, h2]
  norm_num

/-- C4: a valid CNOT succeeds; every basis index with set control bit sends
its pre-update amplitude to the index with the target bit flipped, indices
with clear control bit keep theirs; and Hadamard(0) then CNOT(0,1) on a
fresh 2-qubit circuit yields probabilities `[1/2, 0, 0, 1/2]`. -/
theorem C4_cnot (qc : QuantumCircuit) (c t : ℤ) (hct : c ≠ t) (hc0 : 0 ≤ c)
    (hcn : c < (qc.num_qubits : ℤ)) (ht0 : 0 ≤ t) (htn : t < (qc.num_qubits : ℤ))
    (hlen : qc.state.length = 2 ^ qc.num_qubits) :
    (apply_cnot qc c t).2 = .ok () ∧
    (∀ i < 2 ^ qc.num_qubits,
      (i &&& 2 ^ (qc.num_qubits - 1 - c.toNat) ≠ 0 →
        (apply_cnot qc c t).1.state.getD (i ^^^ 2 ^ (qc.num_qubits - 1 - t.toNat)) 0 =
          qc.state.getD i 0) ∧
      (i &&& 2 ^ (qc.num_qubits - 1 - c.toNat) = 0 →
        (apply_cnot qc c t).1.state.getD i 0 = qc.state.getD i 0)) ∧
    probabilities (apply_cnot (apply_hadamard ⟨2, [1, 0, 0, 0], []⟩ 0).1 0 1).1 =
      [1 / 2, 0, 0, 1 / 2] := by
  have hn : 0 < qc.num_qubits := by omega
  have hcexp : qc.num_qubits - 1 - c.toNat < qc.num_qubits := sub_one_sub_lt _ hn
  have htexp : qc.num_qubits - 1 - t.toNat < qc.num_qubits := sub_one_sub_lt _ hn
  have hne : qc.num_qubits - 1 - c.toNat ≠ qc.num_qubits - 1 - t.toNat := by
    intro hcontra
    apply hct
    omega
  have heq : apply_cnot qc c t =
      (qc.withState (cnotLoop (2 ^ (qc.num_qubits - 1 - c.toNat))
        (2 ^ (qc.num_qubits - 1 - t.toNat)) qc.state), .ok ()) := by
    unfold apply_cnot
    rw [if_neg hct, if_neg (by push_neg; exact ⟨hc0, hcn, ht0, htn⟩),
      Nat.one_shiftLeft, Nat.one_shiftLeft]
  refine ⟨by rw [heq], ?_, bell_probabilities⟩
  intro i hi
  constructor
  · intro hbit
    rw [heq, withState_state,
      cnotLoop_getD qc.state htexp hne hlen _, if_pos (xor_two_pow_lt hi htexp)]
    have hjbit : (i ^^^ 2 ^ (qc.num_qubits - 1 - t.toNat)) &&&
        2 ^ (qc.num_qubits - 1 - c.toNat) ≠ 0 := by
      rw [and_two_pow_ne_zero_iff, testBit_xor_two_pow_ne (Ne.symm hne)]
      exact (and_two_pow_ne_zero_iff _ _).mp hbit
    rw [cnotPerm, if_pos hjbit, xor_two_pow_xor]
  · intro hbit
    rw [heq, withState_state, cnotLoop_getD qc.state htexp hne hlen _, if_pos hi]
    rw [cnotPerm, if_neg (by rw [Ne, not_not]; exact hbit)]

/-- Closed instance of C4: the CNOT after the Hadamard succeeds on the
fresh 2-qubit circuit. -/
theorem C4_cnot_witness :
    (apply_cnot (apply_hadamard ⟨2, [1, 0, 0, 0], []⟩ 0).1 0 1).2 = .ok () := by
  have hH : (apply_hadamard (⟨2, [1, 0, 0, 0], []⟩ : QuantumCircuit) 0).1.num_qubits = 2 ∧
      (apply_hadamard (⟨2, [1, 0, 0, 0], []⟩ : QuantumCircuit) 0).1.state.length = 4 := by
    unfold apply_hadamard
    rw [applySingleQubitGate_ok H_GATE (by norm_num) (by norm_num)]
    refine ⟨rfl, ?_⟩
    rw [withState_state, gateLoop_length]
    rfl
  exact (C4_cnot (apply_hadamard ⟨2, [1, 0, 0, 0], []⟩ 0).1 0 1 (by norm_num)
    (by norm_num) (by rw [hH.1]; norm_num) (by norm_num) (by rw [hH.1]; norm_num)
    (by rw [hH.1, hH.2]; norm_num)).1

/-! ## Claim C8: rotations by 0 and by 2π -/

theorem gateLoop_id {n t : ℕ} (gate : GateMatrix) (old : List ℂ) (ht : t < n)
    (hlen : old.length = 2 ^ n) (h00 : gate.g00 = 1) (h01 : gate.g01 = 0)
    (h10 : gate.g10 = 0) (h11 : gate.g11 = 1) :
    gateLoop gate (2 ^ t) old = old := by
  apply list_ext_getD 0 (by rw [gateLoop_length])
  intro j hj
  rw [gateLoop_getD gate old ht hlen j, if_pos (by rw [← hlen]; exact hj)]
  rw [newAmp]
  split
  · rw [h00, h01, one_mul, zero_mul, add_zero]
  · rw [h10, h11, zero_mul, one_mul, zero_add]

theorem getD_map_sqAbs (l : List ℂ) (i : ℕ) :
    (l.map (fun amp => Complex.abs amp ^ 2)).getD i 0 = Complex.abs (l.getD i 0) ^ 2 := by
  rcases Nat.lt_or_ge i l.length with h | h
  · rw [List.getD_eq_getElem?_getD, List.getElem?_map, List.getElem?_eq_getElem h,
      List.getD_eq_getElem?_getD, List.getElem?_eq_getElem h]
    rfl
  · rw [List.getD_eq_getElem?_getD, List.getElem?_map,
      List.getElem?_eq_none (by simpa using h), List.getD_eq_getElem?_getD,
      List.getElem?_eq_none (by simpa using h)]
    simp

theorem gateLoop_neg_prob {n t : ℕ} (gate : GateMatrix) (old : List ℂ) (ht : t < n)
    (hlen : old.length = 2 ^ n) (h00 : gate.g00 = -1) (h01 : gate.g01 = 0)
    (h10 : gate.g10 = 0) (h11 : gate.g11 = -1) :
    (gateLoop gate (2 ^ t) old).map (fun amp => Complex.abs amp ^ 2) =
      old.map (fun amp => Complex.abs amp ^ 2) := by
  apply list_ext_getD 0
  · rw [List.length_map, List.length_map, gateLoop_length]
  · intro j hj
    rw [List.length_map] at hj
    rw [getD_map_sqAbs, getD_map_sqAbs, gateLoop_getD gate old ht hlen j,
      if_pos (by rw [← hlen]; exact hj), newAmp]
    split
    · rw [h00, h01, zero_mul, add_zero, neg_one_mul, Complex.abs.map_neg]
    · rw [h10, h11, zero_mul, zero_add, neg_one_mul, Complex.abs.map_neg]

/-- C8: for every valid qubit index and every axis, rotation by angle 0
leaves the amplitude vector identically unchanged, and rotation by `2π`
leaves every value of `probabilities()` unchanged (the amplitudes pick up
the global phase `-1`). -/
theorem C8_rotations (qc : QuantumCircuit) (q : ℤ) (h0 : 0 ≤ q)
    (hq : q < (qc.num_qubits : ℤ)) (hlen : qc.state.length = 2 ^ qc.num_qubits) :
    (apply_rx qc q 0).1.state = qc.state ∧
    (apply_ry qc q 0).1.state = qc.state ∧
    (apply_rz qc q 0).1.state = qc.state ∧
    probabilities (apply_rx qc q (2 * Real.pi)).1 = probabilities qc ∧
    probabilities (apply_ry qc q (2 * Real.pi)).1 = probabilities qc ∧
    probabilities (apply_rz qc q (2 * Real.pi)).1 = probabilities qc := by
  have hn : 0 < qc.num_qubits := by omega
  have ht : qc.num_qubits - 1 - q.toNat < qc.num_qubits := sub_one_sub_lt _ hn
  have hhalf : (2 : ℝ) * Real.pi / 2 = Real.pi := by ring
  refine ⟨?_, ?_, ?_, ?_, ?_, ?_⟩
  · unfold apply_rx
    rw [applySingleQubitGate_ok _ h0 hq, withState_state]
    exact gateLoop_id _ qc.state ht hlen (by simp [rxGate]) (by simp [rxGate])
      (by simp [rxGate]) (by simp [rxGate])
  · unfold apply_ry
    rw [applySingleQubitGate_ok _ h0 hq, withState_state]
    exact gateLoop_id _ qc.state ht hlen (by simp [ryGate]) (by simp [ryGate])
      (by simp [ryGate]) (by simp [ryGate])
  · unfold apply_rz
    rw [applySingleQubitGate_ok _ h0 hq, withState_state]
    exact gateLoop_id _ qc.state ht hlen (by simp [rzGate]) (by simp [rzGate])
      (by simp [rzGate]) (by simp [rzGate])
  · unfold apply_rx
    rw [applySingleQubitGate_ok _ h0 hq]
    show (gateLoop (rxGate (2 * Real.pi)) _ qc.state).map (fun amp => Complex.abs amp ^ 2) = _
    rw [gateLoop_neg_prob _ qc.state ht hlen (by
        show ((Real.cos (2 * Real.pi / 2) : ℝ) : ℂ) = -1
        rw [hhalf, Real.cos_pi]
        push_cast
        ring)
      (by
        show -Complex.I * ((Real.sin (2 * Real.pi / 2) : ℝ) : ℂ) = 0
        rw [hhalf, Real.sin_pi]
        push_cast
        ring)
      (by
        show -Complex.I * ((Real.sin (2 * Real.pi / 2) : ℝ) : ℂ) = 0
        rw [hhalf, Real.sin_pi]
        push_cast
        ring)
      (by
        show ((Real.cos (2 * Real.pi / 2) : ℝ) : ℂ) = -1
        rw [hhalf, Real.cos_pi]
        push_cast
        ring)]
    rfl
  · unfold apply_ry
    rw [applySingleQubitGate_ok _ h0 hq]
    show (gateLoop (ryGate (2 * Real.pi)) _ qc.state).map (fun amp => Complex.abs amp ^ 2) = _
    rw [gateLoop_neg_prob _ qc.state ht hlen (by
        show ((Real.cos (2 * Real.pi / 2) : ℝ) : ℂ) = -1
        rw [hhalf, Real.cos_pi]
        push_cast
        ring)
      (by
        show ((-Real.sin (2 * Real.pi / 2) : ℝ) : ℂ) = 0
        rw [hhalf, Real.sin_pi]
        push_cast
        ring)
      (by
        show ((Real.sin (2 * Real.pi / 2) : ℝ) : ℂ) = 0
        rw [hhalf, Real.sin_pi]
        push_cast
        ring)
      (by
        show ((Real.cos (2 * Real.pi / 2) : ℝ) : ℂ) = -1
        rw [hhalf, Real.cos_pi]
        push_cast
        ring)]
    rfl
  · unfold apply_rz
    rw [applySingleQubitGate_ok _ h0 hq]
    show (gateLoop (rzGate (2 * Real.pi)) _ qc.state).map (fun amp => Complex.abs amp ^ 2) = _
    rw [gateLoop_neg_prob _ qc.state ht hlen (by
        show ((Real.cos (2 * Real.pi / 2) : ℝ) : ℂ) -
            Complex.I * ((Real.sin (2 * Real.pi / 2) : ℝ) : ℂ) = -1
        rw [hhalf, Real.cos_pi, Real.sin_pi]
        push_cast
        ring)
      rfl rfl
      (by
        show ((Real.cos (2 * Real.pi / 2) : ℝ) : ℂ) +
            Complex.I * ((Real.sin (2 * Real.pi / 2) : ℝ) : ℂ) = -1
        rw [hhalf, Real.cos_pi, Real.sin_pi]
        push_cast
        ring)]
    rfl

/-- Closed instance of C8: Rx by 0 on a fresh qubit leaves `[1, 0]`. -/
theorem C8_rotations_witness :
    (apply_rx ⟨1, [1, 0], []⟩ 0 0).1.state = [1, 0] :=
  (C8_rotations ⟨1, [1, 0], []⟩ 0 (by norm_num) (by norm_num) (by norm_num)).1

/-! ## Claim C9: `measure_all` as iterated single-target collapse -/

noncomputable section

/-- The spec's formulation of `measure_all`: call the single-target joint
collapse procedure successively for the listed qubits, threading the state
and concatenating the bits.  Written from the spec's words as the
comparison object of the refinement claim (the error branch is unreachable
for in-range qubits). -/
def measureAllSpec (n : ℕ) (rands : ℕ → ℝ) :
    List ℕ → ℕ → List ℂ → List ℂ × List ℕ
  | [], _, state => (state, [])
  | q :: rest, step, state =>
    match collapseQubits n state [(q : ℤ)] (rands step) with
    | .error _ => (state, [])
    | .ok (outcome, st) =>
      let r := measureAllSpec n rands rest (step + 1) st
      (r.1, (if outcome ≠ [] then decVal outcome else 0) :: r.2)

end

theorem measureAllGo_spec (rands : ℕ → ℝ) :
    ∀ (l : List ℕ) (step : ℕ) (qc : QuantumCircuit) (bits : List ℕ),
      (∀ q ∈ l, q < qc.num_qubits) →
      measureAllGo rands l step qc bits =
        (⟨qc.num_qubits, (measureAllSpec qc.num_qubits rands l step qc.state).1,
          qc.measurements ++ (measureAllSpec qc.num_qubits rands l step qc.state).2⟩,
         .ok (bits ++ (measureAllSpec qc.num_qubits rands l step qc.state).2)) := by
  intro l
  induction l with
  | nil =>
    intro step qc bits _
    rw [measureAllGo, measureAllSpec]
    rw [List.append_nil, List.append_nil]
  | cons q rest ih =>
    intro step qc bits hql
    have hq : q < qc.num_qubits := hql q (List.mem_cons_self q rest)
    have hcol : collapseQubits qc.num_qubits qc.state [((q : ℕ) : ℤ)] (rands step) =
        .ok (chosenOutcome qc.num_qubits ([((q : ℕ) : ℤ)].map Int.toNat) qc.state
              (rands step),
            collapsedState qc.num_qubits ([((q : ℕ) : ℤ)].map Int.toNat) qc.state
              (rands step)) :=
      collapseQubits_ok (by
        intro x hx
        rw [List.mem_singleton] at hx
        rw [hx]
        exact ⟨Int.ofNat_nonneg q, by exact_mod_cast hq⟩) (List.nodup_singleton _) (by simp)
    rw [measureAllGo_cons_ok hcol]
    rw [ih (step + 1) _ _ (by
      intro x hx
      rw [withStateMeas_num_qubits]
      exact hql x (List.mem_cons_of_mem q hx))]
    rw [withStateMeas_num_qubits, withStateMeas_state, withStateMeas_measurements]
    rw [show measureAllSpec qc.num_qubits rands (q :: rest) step qc.state =
        ((measureAllSpec qc.num_qubits rands rest (step + 1)
            (collapsedState qc.num_qubits ([((q : ℕ) : ℤ)].map Int.toNat) qc.state
              (rands step))).1,
          (if chosenOutcome qc.num_qubits ([((q : ℕ) : ℤ)].map Int.toNat) qc.state
              (rands step) ≠ [] then
            decVal (chosenOutcome qc.num_qubits ([((q : ℕ) : ℤ)].map Int.toNat) qc.state
              (rands step)) else 0) ::
          (measureAllSpec qc.num_qubits rands rest (step + 1)
            (collapsedState qc.num_qubits ([((q : ℕ) : ℤ)].map Int.toNat) qc.state
              (rands step))).2) from by
      rw [measureAllSpec, hcol]]
    rw [← List.append_cons, ← List.append_cons]

/-- `measure_all` equals the left-to-right composition of single-target
collapses described by `measureAllSpec`. -/
theorem measure_all_eq_spec (qc : QuantumCircuit) (rands : ℕ → ℝ) :
    measure_all qc rands =
      (⟨qc.num_qubits,
        (measureAllSpec qc.num_qubits rands (List.range qc.num_qubits) 0 qc.state).1,
        (measureAllSpec qc.num_qubits rands (List.range qc.num_qubits) 0 qc.state).2⟩,
       .ok (measureAllSpec qc.num_qubits rands (List.range qc.num_qubits) 0 qc.state).2) := by
  unfold measure_all
  rw [measureAllGo_spec rands (List.range qc.num_qubits) 0 (qc.withMeas []) []
    (fun x hx => List.mem_range.mp hx)]
  rw [withMeas_num_qubits, withMeas_state, withMeas_measurements]
  rw [List.nil_append]

/-- C9: `measure_all` produces exactly the amplitude vector and the
concatenated bit sequence (qubit 0 first) of the left-to-right composition
of the single-target collapse procedure over qubits `0 .. n-1`, and records
the collected bits as `measurements`. -/
theorem C9_measure_all_refines (qc : QuantumCircuit) (rands : ℕ → ℝ) :
    measure_all qc rands =
      (⟨qc.num_qubits,
        (measureAllSpec qc.num_qubits rands (List.range qc.num_qubits) 0 qc.state).1,
        (measureAllSpec qc.num_qubits rands (List.range qc.num_qubits) 0 qc.state).2⟩,
       .ok (measureAllSpec qc.num_qubits rands (List.range qc.num_qubits) 0 qc.state).2) :=
  measure_all_eq_spec qc rands

/-! ## Claim C6: validation -/

theorem collapseQubits_cases (n : ℕ) (state : List ℂ) (qubits : List ℤ) (rand : ℝ) :
    (collapseQubits n state qubits rand = .error .indexOutOfRange ↔
      ∃ q ∈ qubits, q < 0 ∨ (n : ℤ) ≤ q) ∧
    (collapseQubits n state qubits rand = .error .invalidArgument ↔
      ((∀ q ∈ qubits, 0 ≤ q ∧ q < (n : ℤ)) ∧ ¬ qubits.Nodup)) := by
  by_cases hbad : ∃ q ∈ qubits, q < 0 ∨ (n : ℤ) ≤ q
  · rw [collapseQubits_error_index hbad]
    have hnv : ¬ ∀ q ∈ qubits, 0 ≤ q ∧ q < (n : ℤ) := by
      obtain ⟨q, hq, hc⟩ := hbad
      intro hall
      obtain ⟨h1, h2⟩ := hall q hq
      omega
    refine ⟨⟨fun _ => hbad, fun _ => rfl⟩, ⟨fun h => ?_, fun h => absurd h.1 hnv⟩⟩
    simp at h
  · push_neg at hbad
    have hall : ∀ q ∈ qubits, 0 ≤ q ∧ q < (n : ℤ) := by
      intro q hq
      obtain ⟨h1, h2⟩ := hbad q hq
      omega
    have hnobad : ¬ ∃ q ∈ qubits, q < 0 ∨ (n : ℤ) ≤ q := by
      rintro ⟨q, hq, hc⟩
      obtain ⟨h1, h2⟩ := hall q hq
      omega
    by_cases hdup : qubits.Nodup
    · by_cases hne : qubits = []
      · rw [hne, collapseQubits_empty]
        rw [hne] at hnobad hall hdup
        refine ⟨⟨fun h => by simp at h, fun h => absurd h hnobad⟩,
          ⟨fun h => by simp at h, fun h => absurd hdup h.2⟩⟩
      · rw [collapseQubits_ok hall hdup hne]
        refine ⟨⟨fun h => by simp at h, fun h => absurd h hnobad⟩,
          ⟨fun h => by simp at h, fun h => absurd hdup h.2⟩⟩
    · rw [collapseQubits_error_dup hall hdup]
      refine ⟨⟨fun h => by simp at h, fun h => absurd h hnobad⟩,
        ⟨fun _ => ⟨hall, hdup⟩, fun _ => rfl⟩⟩

theorem measure_subset_snd_error_iff (qc : QuantumCircuit) (qs : List ℤ) (rand : ℝ)
    (e : SimError) :
    (measure_subset qc qs rand).2 = .error e ↔
      collapseQubits qc.num_qubits qc.state qs rand = .error e := by
  rcases h : collapseQubits qc.num_qubits qc.state qs rand with e' | pair
  · rw [measure_subset_eq_of_error h]
    simp
  · rw [measure_subset_eq_of_collapse (show _ = Except.ok (pair.1, pair.2) from h)]
    constructor
    · intro hh
      simp at hh
    · intro hh
      simp at hh

theorem measure_snd_error_iff (qc : QuantumCircuit) (q : ℤ) (rand : ℝ) (e : SimError) :
    (measure qc q rand).2 = .error e ↔
      collapseQubits qc.num_qubits qc.state [q] rand = .error e := by
  rcases h : collapseQubits qc.num_qubits qc.state [q] rand with e' | pair
  · rw [measure_eq_of_error h]
    simp
  · rw [measure_eq_of_collapse (show _ = Except.ok (pair.1, pair.2) from h)]
    constructor
    · intro hh
      simp at hh
    · intro hh
      simp at hh

/-- C6: construction fails (invalid argument) exactly when `qubit_count < 1`;
gate and measurement calls fail with an index error exactly when a supplied
index leaves `[0, qubit_count)` and with an invalid-argument error exactly
when required-distinct indices coincide (the equal-index check of CNOT/CZ
runs first, the index check of subset measurement runs first); nothing else
makes them fail, and `measure_all` never fails. -/
theorem C6_validation (nq : ℤ) (qc : QuantumCircuit) (gate : GateMatrix)
    (q c t : ℤ) (qs : List ℤ) (rand : ℝ) (rands : ℕ → ℝ) :
    ((∃ e, QuantumCircuit.make nq = .error e) ↔ nq < 1) ∧
    (QuantumCircuit.make nq = .error .invalidArgument ↔ nq < 1) ∧
    ((∃ e, (applySingleQubitGate qc gate q).2 = .error e) ↔
      (q < 0 ∨ (qc.num_qubits : ℤ) ≤ q)) ∧
    ((applySingleQubitGate qc gate q).2 = .error .indexOutOfRange ↔
      (q < 0 ∨ (qc.num_qubits : ℤ) ≤ q)) ∧
    ((∃ e, (apply_cnot qc c t).2 = .error e) ↔
      (c = t ∨ c < 0 ∨ (qc.num_qubits : ℤ) ≤ c ∨ t < 0 ∨ (qc.num_qubits : ℤ) ≤ t)) ∧
    ((apply_cnot qc c t).2 = .error .invalidArgument ↔ c = t) ∧
    ((apply_cnot qc c t).2 = .error .indexOutOfRange ↔
      (c ≠ t ∧ (c < 0 ∨ (qc.num_qubits : ℤ) ≤ c ∨ t < 0 ∨ (qc.num_qubits : ℤ) ≤ t))) ∧
    ((∃ e, (apply_cz qc c t).2 = .error e) ↔
      (c = t ∨ c < 0 ∨ (qc.num_qubits : ℤ) ≤ c ∨ t < 0 ∨ (qc.num_qubits : ℤ) ≤ t)) ∧
    ((apply_cz qc c t).2 = .error .invalidArgument ↔ c = t) ∧
    ((apply_cz qc c t).2 = .error .indexOutOfRange ↔
      (c ≠ t ∧ (c < 0 ∨ (qc.num_qubits : ℤ) ≤ c ∨ t < 0 ∨ (qc.num_qubits : ℤ) ≤ t))) ∧
    ((∃ e, (measure qc q rand).2 = .error e) ↔ (q < 0 ∨ (qc.num_qubits : ℤ) ≤ q)) ∧
    ((measure qc q rand).2 = .error .indexOutOfRange ↔
      (q < 0 ∨ (qc.num_qubits : ℤ) ≤ q)) ∧
    ((measure_subset qc qs rand).2 = .error .indexOutOfRange ↔
      ∃ x ∈ qs, x < 0 ∨ (qc.num_qubits : ℤ) ≤ x) ∧
    ((measure_subset qc qs rand).2 = .error .invalidArgument ↔
      ((∀ x ∈ qs, 0 ≤ x ∧ x < (qc.num_qubits : ℤ)) ∧ ¬ qs.Nodup)) ∧
    ((∃ e, (measure_subset qc qs rand).2 = .error e) ↔
      ((∃ x ∈ qs, x < 0 ∨ (qc.num_qubits : ℤ) ≤ x) ∨ ¬ qs.Nodup)) ∧
    (∀ e, (measure_all qc rands).2 ≠ .error e) := by
  obtain ⟨hidx, hdup⟩ := collapseQubits_cases qc.num_qubits qc.state qs rand
  obtain ⟨hidx1, hdup1⟩ := collapseQubits_cases qc.num_qubits qc.state [q] rand
  have hmake : ∀ e, QuantumCircuit.make nq = .error e → nq < 1 := by
    intro e h
    by_contra hc
    push_neg at hc
    rw [make_ok hc] at h
    simp at h
  have hmake2 : nq < 1 → QuantumCircuit.make nq = .error .invalidArgument := by
    intro h
    unfold QuantumCircuit.make
    rw [if_pos h]
  refine ⟨⟨fun ⟨e, h⟩ => hmake e h, fun h => ⟨_, hmake2 h⟩⟩,
    ⟨fun h => hmake _ h, hmake2⟩, ?_, ?_, ?_, ?_, ?_, ?_, ?_, ?_, ?_, ?_, ?_, ?_, ?_, ?_⟩
  · unfold applySingleQubitGate
    by_cases hv : q < 0 ∨ (qc.num_qubits : ℤ) ≤ q
    · rw [if_pos hv]
      exact ⟨fun _ => hv, fun _ => ⟨_, rfl⟩⟩
    · rw [if_neg hv]
      exact ⟨fun ⟨e, h⟩ => by simp at h, fun h => absurd h hv⟩
  · unfold applySingleQubitGate
    by_cases hv : q < 0 ∨ (qc.num_qubits : ℤ) ≤ q
    · rw [if_pos hv]
      exact ⟨fun _ => hv, fun _ => rfl⟩
    · rw [if_neg hv]
      exact ⟨fun h => by simp at h, fun h => absurd h hv⟩
  · unfold apply_cnot
    by_cases hct : c = t
    · rw [if_pos hct]
      exact ⟨fun _ => Or.inl hct, fun _ => ⟨_, rfl⟩⟩
    · rw [if_neg hct]
      by_cases hv : c < 0 ∨ (qc.num_qubits : ℤ) ≤ c ∨ t < 0 ∨ (qc.num_qubits : ℤ) ≤ t
      · rw [if_pos hv]
        exact ⟨fun _ => Or.inr hv, fun _ => ⟨_, rfl⟩⟩
      · rw [if_neg hv]
        refine ⟨fun ⟨e, h⟩ => by simp at h, fun h => ?_⟩
        rcases h with h | h
        · exact absurd h hct
        · exact absurd h hv
  · unfold apply_cnot
    by_cases hct : c = t
    · rw [if_pos hct]
      exact ⟨fun _ => hct, fun _ => rfl⟩
    · rw [if_neg hct]
      by_cases hv : c < 0 ∨ (qc.num_qubits : ℤ) ≤ c ∨ t < 0 ∨ (qc.num_qubits : ℤ) ≤ t
      · rw [if_pos hv]
        refine ⟨fun h => by simp at h, fun h => absurd h hct⟩
      · rw [if_neg hv]
        exact ⟨fun h => by simp at h, fun h => absurd h hct⟩
  · unfold apply_cnot
    by_cases hct : c = t
    · rw [if_pos hct]
      refine ⟨fun h => by simp at h, fun h => absurd hct h.1⟩
    · rw [if_neg hct]
      by_cases hv : c < 0 ∨ (qc.num_qubits : ℤ) ≤ c ∨ t < 0 ∨ (qc.num_qubits : ℤ) ≤ t
      · rw [if_pos hv]
        exact ⟨fun _ => ⟨hct, hv⟩, fun _ => rfl⟩
      · rw [if_neg hv]
        exact ⟨fun h => by simp at h, fun h => absurd h.2 hv⟩
  · unfold apply_cz
    by_cases hct : c = t
    · rw [if_pos hct]
      exact ⟨fun _ => Or.inl hct, fun _ => ⟨_, rfl⟩⟩
    · rw [if_neg hct]
      by_cases hv : c < 0 ∨ (qc.num_qubits : ℤ) ≤ c ∨ t < 0 ∨ (qc.num_qubits : ℤ) ≤ t
      · rw [if_pos hv]
        exact ⟨fun _ => Or.inr hv, fun _ => ⟨_, rfl⟩⟩
      · rw [if_neg hv]
        refine ⟨fun ⟨e, h⟩ => by simp at h, fun h => ?_⟩
        rcases h with h | h
        · exact absurd h hct
        · exact absurd h hv
  · unfold apply_cz
    by_cases hct : c = t
    · rw [if_pos hct]
      exact ⟨fun _ => hct, fun _ => rfl⟩
    · rw [if_neg hct]
      by_cases hv : c < 0 ∨ (qc.num_qubits : ℤ) ≤ c ∨ t < 0 ∨ (qc.num_qubits : ℤ) ≤ t
      · rw [if_pos hv]
        refine ⟨fun h => by simp at h, fun h => absurd h hct⟩
      · rw [if_neg hv]
        exact ⟨fun h => by simp at h, fun h => absurd h hct⟩
  · unfold apply_cz
    by_cases hct : c = t
    · rw [if_pos hct]
      refine ⟨fun h => by simp at h, fun h => absurd hct h.1⟩
    · rw [if_neg hct]
      by_cases hv : c < 0 ∨ (qc.num_qubits : ℤ) ≤ c ∨ t < 0 ∨ (qc.num_qubits : ℤ) ≤ t
      · rw [if_pos hv]
        exact ⟨fun _ => ⟨hct, hv⟩, fun _ => rfl⟩
      · rw [if_neg hv]
        exact ⟨fun h => by simp at h, fun h => absurd h.2 hv⟩
  · constructor
    · rintro ⟨e, h⟩
      rw [measure_snd_error_iff] at h
      cases e with
      | indexOutOfRange =>
        obtain ⟨x, hx, hc⟩ := hidx1.mp h
        rw [List.mem_singleton] at hx
        rw [hx] at hc
        exact hc
      | invalidArgument =>
        obtain ⟨_, hnd⟩ := hdup1.mp h
        exact absurd (List.nodup_singleton q) hnd
    · intro h
      refine ⟨.indexOutOfRange, ?_⟩
      rw [measure_snd_error_iff]
      exact hidx1.mpr ⟨q, List.mem_singleton_self q, h⟩
  · rw [measure_snd_error_iff]
    constructor
    · intro h
      obtain ⟨x, hx, hc⟩ := hidx1.mp h
      rw [List.mem_singleton] at hx
      rw [hx] at hc
      exact hc
    · intro h
      exact hidx1.mpr ⟨q, List.mem_singleton_self q, h⟩
  · rw [measure_subset_snd_error_iff]
    exact hidx
  · rw [measure_subset_snd_error_iff]
    exact hdup
  · constructor
    · rintro ⟨e, h⟩
      rw [measure_subset_snd_error_iff] at h
      cases e with
      | indexOutOfRange => exact Or.inl (hidx.mp h)
      | invalidArgument => exact Or.inr (hdup.mp h).2
    · intro h
      rcases h with h | h
      · exact ⟨.indexOutOfRange, (measure_subset_snd_error_iff qc qs rand _).mpr
          (hidx.mpr h)⟩
      · by_cases hv : ∀ x ∈ qs, 0 ≤ x ∧ x < (qc.num_qubits : ℤ)
        · exact ⟨.invalidArgument, (measure_subset_snd_error_iff qc qs rand _).mpr
            (hdup.mpr ⟨hv, h⟩)⟩
        · push_neg at hv
          obtain ⟨x, hx, hc⟩ := hv
          refine ⟨.indexOutOfRange, (measure_subset_snd_error_iff qc qs rand _).mpr
            (hidx.mpr ⟨x, hx, ?_⟩)⟩
          omega
  · intro e
    rw [measure_all_eq_spec]
    simp

/-! ## Claim C7: operations are all-or-nothing -/

theorem gate_error_frame (qc : QuantumCircuit) (gate : GateMatrix) (q : ℤ) (e : SimError) :
    errPart (applySingleQubitGate qc gate q).2 = some e →
    (applySingleQubitGate qc gate q).1 = qc := by
  unfold applySingleQubitGate
  by_cases hv : q < 0 ∨ (qc.num_qubits : ℤ) ≤ q
  · rw [if_pos hv]
    intro _
    rfl
  · rw [if_neg hv]
    intro he
    simp [errPart] at he

theorem cnot_error_frame (qc : QuantumCircuit) (c t : ℤ) (e : SimError) :
    errPart (apply_cnot qc c t).2 = some e → (apply_cnot qc c t).1 = qc := by
  unfold apply_cnot
  by_cases hct : c = t
  · rw [if_pos hct]
    intro _
    rfl
  · rw [if_neg hct]
    by_cases hv : c < 0 ∨ (qc.num_qubits : ℤ) ≤ c ∨ t < 0 ∨ (qc.num_qubits : ℤ) ≤ t
    · rw [if_pos hv]
      intro _
      rfl
    · rw [if_neg hv]
      intro he
      simp [errPart] at he

theorem cz_error_frame (qc : QuantumCircuit) (c t : ℤ) (e : SimError) :
    errPart (apply_cz qc c t).2 = some e → (apply_cz qc c t).1 = qc := by
  unfold apply_cz
  by_cases hct : c = t
  · rw [if_pos hct]
    intro _
    rfl
  · rw [if_neg hct]
    by_cases hv : c < 0 ∨ (qc.num_qubits : ℤ) ≤ c ∨ t < 0 ∨ (qc.num_qubits : ℤ) ≤ t
    · rw [if_pos hv]
      intro _
      rfl
    · rw [if_neg hv]
      intro he
      simp [errPart] at he

theorem measure_error_frame (qc : QuantumCircuit) (q : ℤ) (rand : ℝ) (e : SimError) :
    errPart (measure qc q rand).2 = some e → (measure qc q rand).1 = qc := by
  rcases h : collapseQubits qc.num_qubits qc.state [q] rand with e' | pair
  · rw [measure_eq_of_error h]
    intro _
    rfl
  · rw [measure_eq_of_collapse (show _ = Except.ok (pair.1, pair.2) from h)]
    intro he
    simp [errPart] at he

theorem measure_subset_error_frame (qc : QuantumCircuit) (qs : List ℤ) (rand : ℝ)
    (e : SimError) :
    errPart (measure_subset qc qs rand).2 = some e → (measure_subset qc qs rand).1 = qc := by
  rcases h : collapseQubits qc.num_qubits qc.state qs rand with e' | pair
  · rw [measure_subset_eq_of_error h]
    intro _
    rfl
  · rw [measure_subset_eq_of_collapse (show _ = Except.ok (pair.1, pair.2) from h)]
    intro he
    simp [errPart] at he

/-- C7: a failing call leaves the circuit object exactly as it was —
validation precedes every mutation, for all gates, measurements and
`initialize_statevector`. -/
theorem C7_all_or_nothing (qc : QuantumCircuit) (op : Op) (amps : List ℂ) :
    (∀ e, (runOp qc op).2 = some e → (runOp qc op).1 = qc) ∧
    (∀ e, (initialize_statevector qc amps).2 = .error e →
      (initialize_statevector qc amps).1 = qc) := by
  constructor
  · intro e
    cases op with
    | hadamard q => exact gate_error_frame qc H_GATE q e
    | pauliX q => exact gate_error_frame qc X_GATE q e
    | pauliY q => exact gate_error_frame qc Y_GATE q e
    | pauliZ q => exact gate_error_frame qc Z_GATE q e
    | sgate q => exact gate_error_frame qc S_GATE q e
    | tgate q => exact gate_error_frame qc T_GATE q e
    | rx q angle => exact gate_error_frame qc (rxGate angle) q e
    | ry q angle => exact gate_error_frame qc (ryGate angle) q e
    | rz q angle => exact gate_error_frame qc (rzGate angle) q e
    | cnot c t => exact cnot_error_frame qc c t e
    | cz c t => exact cz_error_frame qc c t e
    | measureOne q rand => exact measure_error_frame qc q rand e
    | measureAllOp rands =>
      show errPart (measure_all qc rands).2 = some e → (measure_all qc rands).1 = qc
      rw [measure_all_eq_spec]
      intro he
      simp [errPart] at he
    | measureSubsetOp qs rand => exact measure_subset_error_frame qc qs rand e
  · intro e
    unfold initialize_statevector
    by_cases h1 : amps.length ≠ 2 ^ qc.num_qubits
    · rw [if_pos h1]
      intro _
      rfl
    · rw [if_neg h1]
      by_cases h2 : ¬ isclose (normSum amps) 1
      · rw [if_pos h2]
        intro _
        rfl
      · rw [if_neg h2]
        intro he
        simp at he

/-! ## Claim C5: custom state initialization -/

/-- C5: `initialize_statevector` fails (with the invalid-argument error)
exactly when the length differs from `2 ^ n` or the total squared magnitude
is not `isclose` to 1; on success the supplied amplitudes replace the vector
verbatim and `statevector()` echoes them back. -/
theorem C5_initialize (qc : QuantumCircuit) (amps : List ℂ) :
    ((∃ e, (initialize_statevector qc amps).2 = .error e) ↔
      (amps.length ≠ 2 ^ qc.num_qubits ∨ ¬ isclose (normSum amps) 1)) ∧
    ((initialize_statevector qc amps).2 = .error .invalidArgument ↔
      (amps.length ≠ 2 ^ qc.num_qubits ∨ ¬ isclose (normSum amps) 1)) ∧
    (amps.length = 2 ^ qc.num_qubits → isclose (normSum amps) 1 →
      initialize_statevector qc amps = (qc.withState amps, .ok ()) ∧
      statevector (initialize_statevector qc amps).1 = amps ∧
      (initialize_statevector qc amps).1.state = amps) := by
  unfold initialize_statevector
  by_cases h1 : amps.length ≠ 2 ^ qc.num_qubits
  · rw [if_pos h1]
    exact ⟨⟨fun _ => Or.inl h1, fun _ => ⟨_, rfl⟩⟩, ⟨fun _ => Or.inl h1, fun _ => rfl⟩,
      fun h _ => absurd h h1⟩
  · rw [if_neg h1]
    push_neg at h1
    by_cases h2 : ¬ isclose (normSum amps) 1
    · rw [if_pos h2]
      exact ⟨⟨fun _ => Or.inr h2, fun _ => ⟨_, rfl⟩⟩, ⟨fun _ => Or.inr h2, fun _ => rfl⟩,
        fun _ h => absurd h h2⟩
    · rw [if_neg h2]
      refine ⟨⟨fun ⟨e, h⟩ => by simp at h, fun h => ?_⟩,
        ⟨fun h => by simp at h, fun h => ?_⟩, fun _ _ => ⟨rfl, rfl, rfl⟩⟩
      · rcases h with h | h
        · exact absurd h1 h
        · exact absurd h h2
      · rcases h with h | h
        · exact absurd h1 h
        · exact absurd h h2

/-! ## Claim C2: the measurement routine, with the forced-draw example -/

theorem hadamard_fresh_one_eval :
    (apply_hadamard (⟨1, [1, 0], []⟩ : QuantumCircuit) 0).1 =
      ⟨1, [((1 / Real.sqrt 2 : ℝ) : ℂ), ((1 / Real.sqrt 2 : ℝ) : ℂ)], []⟩ := by
  unfold apply_hadamard
  rw [applySingleQubitGate_ok H_GATE (by norm_num) (by norm_num)]
  rw [show (2 : ℕ) ^ (1 - 1 - (0 : ℤ).toNat) = 1 from rfl]
  rw [show gateLoop H_GATE 1 [1, 0] =
    [((1 / Real.sqrt 2 : ℝ) : ℂ), ((1 / Real.sqrt 2 : ℝ) : ℂ)] from by
      simp [gateLoop, gateBody, List.range_succ, H_GATE]]
  rfl

theorem normSum_hadamard_one :
    normSum [((1 / Real.sqrt 2 : ℝ) : ℂ), ((1 / Real.sqrt 2 : ℝ) : ℂ)] = 1 := by
  have h2 : Real.sqrt 2 * Real.sqrt 2 = 2 := Real.mul_self_sqrt (by norm_num)
  unfold normSum
  rw [List.map_cons, List.map_cons, List.map_nil, List.sum_cons, List.sum_cons,
    List.sum_nil]
  simp only [Complex.sq_abs, Complex.normSq_ofReal]
  rw [div_mul_div_comm, h2]
  norm_num

theorem outcomeProb_had_one :
    outcomeProb 1 [0] [((1 / Real.sqrt 2 : ℝ) : ℂ), ((1 / Real.sqrt 2 : ℝ) : ℂ)] [1] =
        1 / 2 ∧
      outcomeProb 1 [0] [((1 / Real.sqrt 2 : ℝ) : ℂ), ((1 / Real.sqrt 2 : ℝ) : ℂ)] [0] =
        1 / 2 := by
  have h2 : Real.sqrt 2 * Real.sqrt 2 = 2 := Real.mul_self_sqrt (by norm_num)
  constructor
  · unfold outcomeProb
    rw [show ([((1 / Real.sqrt 2 : ℝ) : ℂ), ((1 / Real.sqrt 2 : ℝ) : ℂ)] : List ℂ).length =
      2 from rfl]
    rw [show (Finset.range 2).filter (fun i => bitsOf 1 [0] i = [1]) = {1} from by decide]
    rw [Finset.sum_singleton]
    rw [show ([((1 / Real.sqrt 2 : ℝ) : ℂ), ((1 / Real.sqrt 2 : ℝ) : ℂ)] : List ℂ).getD 1 0 =
      ((1 / Real.sqrt 2 : ℝ) : ℂ) from rfl]
    simp only [Complex.sq_abs, Complex.normSq_ofReal]
    rw [div_mul_div_comm, h2]
    norm_num
  · unfold outcomeProb
    rw [show ([((1 / Real.sqrt 2 : ℝ) : ℂ), ((1 / Real.sqrt 2 : ℝ) : ℂ)] : List ℂ).length =
      2 from rfl]
    rw [show (Finset.range 2).filter (fun i => bitsOf 1 [0] i = [0]) = {0} from by decide]
    rw [Finset.sum_singleton]
    rw [show ([((1 / Real.sqrt 2 : ℝ) : ℂ), ((1 / Real.sqrt 2 : ℝ) : ℂ)] : List ℂ).getD 0 0 =
      ((1 / Real.sqrt 2 : ℝ) : ℂ) from rfl]
    simp only [Complex.sq_abs, Complex.normSq_ofReal]
    rw [div_mul_div_comm, h2]
    norm_num

theorem sortedItems_had_one :
    sortedItems 1 [0] [((1 / Real.sqrt 2 : ℝ) : ℂ), ((1 / Real.sqrt 2 : ℝ) : ℂ)] =
      [([1], 1 / 2), ([0], 1 / 2)] := by
  unfold sortedItems
  rw [show ([((1 / Real.sqrt 2 : ℝ) : ℂ), ((1 / Real.sqrt 2 : ℝ) : ℂ)] : List ℂ).length =
    2 from rfl]
  rw [show outcomeKeysList 1 [0] 2 = [[0], [1]] from by decide]
  rw [List.map_cons, List.map_cons, List.map_nil]
  rw [outcomeProb_had_one.1, outcomeProb_had_one.2]
  simp [sortDescPairs, sortInsert, tupleLtB]

theorem chosen_had_one :
    chosenOutcome 1 [0] [((1 / Real.sqrt 2 : ℝ) : ℂ), ((1 / Real.sqrt 2 : ℝ) : ℂ)]
      (1 / 4) = [1] := by
  unfold chosenOutcome
  rw [sortedItems_had_one]
  rw [show pickOutcome (1 / 4 : ℝ) 0 [([1], 1 / 2), ([0], 1 / 2)] = some [1] from by
    unfold pickOutcome
    rw [if_pos (by norm_num)]]

theorem collapsed_had_one :
    collapsedState 1 [0] [((1 / Real.sqrt 2 : ℝ) : ℂ), ((1 / Real.sqrt 2 : ℝ) : ℂ)]
      (1 / 4) = [0, 1] := by
  simp only [collapsedState]
  rw [chosen_had_one, outcomeProb_had_one.1]
  rw [if_pos (by norm_num : (0 : ℝ) < 1 / 2)]
  rw [show (List.range
      ([((1 / Real.sqrt 2 : ℝ) : ℂ), ((1 / Real.sqrt 2 : ℝ) : ℂ)] : List ℂ).length).map
      (fun i => if bitsOf 1 [0] i = [1] then
        ([((1 / Real.sqrt 2 : ℝ) : ℂ), ((1 / Real.sqrt 2 : ℝ) : ℂ)] : List ℂ).getD i 0
      else 0) = [0, ((1 / Real.sqrt 2 : ℝ) : ℂ)] from by
    simp [List.range_succ, bitsOf]]
  rw [List.map_cons, List.map_cons, List.map_nil, zero_div]
  rw [show ((Real.sqrt (1 / 2) : ℝ) : ℂ) = ((1 / Real.sqrt 2 : ℝ) : ℂ) from by
    rw [show (1 / 2 : ℝ) = 2⁻¹ from by norm_num, Real.sqrt_inv, one_div]]
  rw [div_self (by
    rw [Ne, Complex.ofReal_eq_zero]
    positivity)]

theorem measure_had_forced :
    measure ⟨1, [((1 / Real.sqrt 2 : ℝ) : ℂ), ((1 / Real.sqrt 2 : ℝ) : ℂ)], []⟩ 0
      (1 / 4) = (⟨1, [0, 1], [1]⟩, .ok 1) := by
  have hcol : collapseQubits 1
      [((1 / Real.sqrt 2 : ℝ) : ℂ), ((1 / Real.sqrt 2 : ℝ) : ℂ)] [0] (1 / 4) =
      .ok ([1], [0, 1]) := by
    rw [collapseQubits_ok (by
        intro x hx
        rw [List.mem_singleton] at hx
        rw [hx]
        norm_num) (List.nodup_singleton _) (by simp)]
    rw [show List.map Int.toNat [(0 : ℤ)] = [0] from rfl]
    rw [chosen_had_one, collapsed_had_one]
  rw [measure_eq_of_collapse (show collapseQubits
      (⟨1, [((1 / Real.sqrt 2 : ℝ) : ℂ), ((1 / Real.sqrt 2 : ℝ) : ℂ)], []⟩ :
        QuantumCircuit).num_qubits
      (⟨1, [((1 / Real.sqrt 2 : ℝ) : ℂ), ((1 / Real.sqrt 2 : ℝ) : ℂ)], []⟩ :
        QuantumCircuit).state [0] (1 / 4) = Except.ok ([1], [0, 1]) from hcol)]
  rfl

/-- C2: on validated non-empty distinct qubits, a normalised state and a
draw in `[0, 1)`, `measure_subset` returns the selected outcome (one bit per
requested qubit, request order), records it as `measurements`, collapses to
the renormalised filtered vector with the chosen mass strictly positive and
unit post-norm; and the forced draw `1/4` on a Hadamard-prepared single
qubit yields outcome 1 with post-state amplitudes `[0, 1]`. -/
theorem C2_collapse (qc : QuantumCircuit) (qubits : List ℤ) (rand : ℝ)
    (hvalid : ∀ x ∈ qubits, 0 ≤ x ∧ x < (qc.num_qubits : ℤ)) (hnodup : qubits.Nodup)
    (hne : qubits ≠ []) (hsum : normSum qc.state = 1) (hr0 : 0 ≤ rand) (hr1 : rand < 1) :
    measure_subset qc qubits rand =
      (qc.withStateMeas
        (collapsedState qc.num_qubits (qubits.map Int.toNat) qc.state rand)
        (chosenOutcome qc.num_qubits (qubits.map Int.toNat) qc.state rand),
       .ok (chosenOutcome qc.num_qubits (qubits.map Int.toNat) qc.state rand)) ∧
    (chosenOutcome qc.num_qubits (qubits.map Int.toNat) qc.state rand).length =
      qubits.length ∧
    0 < outcomeProb qc.num_qubits (qubits.map Int.toNat) qc.state
      (chosenOutcome qc.num_qubits (qubits.map Int.toNat) qc.state rand) ∧
    (∀ j, (collapsedState qc.num_qubits (qubits.map Int.toNat) qc.state rand).getD j 0 =
      if j < qc.state.length ∧ bitsOf qc.num_qubits (qubits.map Int.toNat) j =
          chosenOutcome qc.num_qubits (qubits.map Int.toNat) qc.state rand then
        qc.state.getD j 0 /
          ((Real.sqrt (outcomeProb qc.num_qubits (qubits.map Int.toNat) qc.state
            (chosenOutcome qc.num_qubits (qubits.map Int.toNat) qc.state rand)) : ℝ) : ℂ)
      else 0) ∧
    normSum (collapsedState qc.num_qubits (qubits.map Int.toNat) qc.state rand) = 1 ∧
    (apply_hadamard (⟨1, [1, 0], []⟩ : QuantumCircuit) 0).1 =
      ⟨1, [((1 / Real.sqrt 2 : ℝ) : ℂ), ((1 / Real.sqrt 2 : ℝ) : ℂ)], []⟩ ∧
    measure ⟨1, [((1 / Real.sqrt 2 : ℝ) : ℂ), ((1 / Real.sqrt 2 : ℝ) : ℂ)], []⟩ 0
      (1 / 4) = (⟨1, [0, 1], [1]⟩, .ok 1) := by
  obtain ⟨hpick, hkey, hp⟩ := @chosenOutcome_spec qc.num_qubits (qubits.map Int.toNat)
    qc.state rand hsum hr0 hr1
  refine ⟨measure_subset_eq_of_collapse (collapseQubits_ok hvalid hnodup hne), ?_, hp,
    fun j => collapsedState_getD hp j, collapsedState_normSum hp,
    hadamard_fresh_one_eval, measure_had_forced⟩
  obtain ⟨i, _, hbits⟩ := mem_keysList.mp hkey
  rw [← hbits]
  unfold bitsOf
  rw [List.length_map, List.length_map]

/-- Closed instance of C2: the selected outcome's probability mass on the
Hadamard-prepared qubit is strictly positive. -/
theorem C2_collapse_witness :
    0 < outcomeProb 1 ([(0 : ℤ)].map Int.toNat)
      [((1 / Real.sqrt 2 : ℝ) : ℂ), ((1 / Real.sqrt 2 : ℝ) : ℂ)]
      (chosenOutcome 1 ([(0 : ℤ)].map Int.toNat)
        [((1 / Real.sqrt 2 : ℝ) : ℂ), ((1 / Real.sqrt 2 : ℝ) : ℂ)] (1 / 4)) :=
  (C2_collapse ⟨1, [((1 / Real.sqrt 2 : ℝ) : ℂ), ((1 / Real.sqrt 2 : ℝ) : ℂ)], []⟩
    [0] (1 / 4)
    (by
      intro x hx
      rw [List.mem_singleton] at hx
      rw [hx]
      norm_num) (List.nodup_singleton _) (by simp) normSum_hadamard_one
    (by norm_num) (by norm_num)).2.2.1

/-! ## Claim C10: repeated subset measurement is idempotent -/

/-- C10: after a successful subset measurement, an immediately repeated
`measure_subset` on the same qubits returns the same outcome for every
second draw in `[0, 1)` and leaves the circuit (state and `measurements`)
unchanged. -/
theorem C10_measure_subset_idempotent (qc : QuantumCircuit) (qubits : List ℤ) (r1 r2 : ℝ)
    (hvalid : ∀ x ∈ qubits, 0 ≤ x ∧ x < (qc.num_qubits : ℤ)) (hnodup : qubits.Nodup)
    (hne : qubits ≠ []) (hsum : normSum qc.state = 1)
    (hr10 : 0 ≤ r1) (hr11 : r1 < 1) (hr20 : 0 ≤ r2) (hr21 : r2 < 1) :
    ∃ outcome : List ℕ,
      (measure_subset qc qubits r1).2 = .ok outcome ∧
      measure_subset (measure_subset qc qubits r1).1 qubits r2 =
        ((measure_subset qc qubits r1).1, .ok outcome) := by
  have h1 := measure_subset_eq_of_collapse
    (@collapseQubits_ok qc.num_qubits qc.state qubits r1 hvalid hnodup hne)
  obtain ⟨hc2, hs2⟩ := @collapse_idempotent qc.num_qubits (qubits.map Int.toNat)
    qc.state r1 r2 hsum hr10 hr11 hr20 hr21
  refine ⟨chosenOutcome qc.num_qubits (qubits.map Int.toNat) qc.state r1,
    by rw [h1], ?_⟩
  rw [h1]
  have h2 := measure_subset_eq_of_collapse
    (@collapseQubits_ok
      (qc.withStateMeas (collapsedState qc.num_qubits (qubits.map Int.toNat) qc.state r1)
        (chosenOutcome qc.num_qubits (qubits.map Int.toNat) qc.state r1)).num_qubits
      (qc.withStateMeas (collapsedState qc.num_qubits (qubits.map Int.toNat) qc.state r1)
        (chosenOutcome qc.num_qubits (qubits.map Int.toNat) qc.state r1)).state
      qubits r2 (by simpa using hvalid) hnodup hne)
  rw [h2, withStateMeas_num_qubits, withStateMeas_state, hc2, hs2]
  rfl

/-- Closed instance of C10 on the Hadamard-prepared single qubit. -/
theorem C10_measure_subset_idempotent_witness :
    ∃ outcome : List ℕ,
      (measure_subset ⟨1, [((1 / Real.sqrt 2 : ℝ) : ℂ), ((1 / Real.sqrt 2 : ℝ) : ℂ)], []⟩
        [0] (1 / 4)).2 = .ok outcome ∧
      measure_subset (measure_subset
          ⟨1, [((1 / Real.sqrt 2 : ℝ) : ℂ), ((1 / Real.sqrt 2 : ℝ) : ℂ)], []⟩
          [0] (1 / 4)).1 [0] (1 / 2) =
        ((measure_subset ⟨1, [((1 / Real.sqrt 2 : ℝ) : ℂ), ((1 / Real.sqrt 2 : ℝ) : ℂ)], []⟩
          [0] (1 / 4)).1, .ok outcome) :=
  C10_measure_subset_idempotent
    ⟨1, [((1 / Real.sqrt 2 : ℝ) : ℂ), ((1 / Real.sqrt 2 : ℝ) : ℂ)], []⟩ [0] (1 / 4) (1 / 2)
    (by
      intro x hx
      rw [List.mem_singleton] at hx
      rw [hx]
      norm_num) (List.nodup_singleton _) (by simp) normSum_hadamard_one
    (by norm_num) (by norm_num) (by norm_num) (by norm_num)

end QSim
